import Mathlib

/-!
Verification of the Runik block-editor engine.

The definitions below are a shallow embedding of the TypeScript sources:
  - `src/src/types/editor/editor.ts` (the `Editor` class and the `RunikUI` class),
  - `src/src/types/editor/editorConfiguration.ts` (the `EditorConfiguration` interface),
  - `src/core/src/types/editor/editor.ts` (the core `Editor` class used by serialization),
  - `src/core/src/utils/serializeConfiguration.ts`, `src/core/src/utils/deserializeConfiguration.ts`
    and the unnamed serialization utilities (`serializeBlock`, `deserializeEditor`).

JavaScript data values are modelled by the inductive `JSValue` of JSON-representable
values (numbers are modelled as integers; the well-formedness predicate `jsWF`
restricts them to the range in which JavaScript numbers are exact integers).
Methods that `throw` are modelled as functions into `Except String`.
-/

set_option linter.unusedVariables false

namespace Runik

/-- JSON-representable JavaScript values.  JavaScript numbers are modelled as
integers (`jsWF` below restricts to the safe-integer range where JavaScript
arithmetic and `JSON.stringify` are exact); objects are ordered field lists,
as JavaScript objects enumerate their keys in insertion order. -/
inductive JSValue where
  | null
  | bool (b : Bool)
  | num (n : Int)
  | str (s : String)
  | arr (elems : List JSValue)
  | obj (fields : List (String × JSValue))
deriving Repr, Inhabited

/-- Induction principle for `JSValue` that recurses through the nested lists. -/
def JSValue.inductionOn {P : JSValue → Prop}
    (hnull : P .null) (hbool : ∀ b, P (.bool b)) (hnum : ∀ n, P (.num n))
    (hstr : ∀ s, P (.str s))
    (harr : ∀ xs, (∀ x ∈ xs, P x) → P (.arr xs))
    (hobj : ∀ fs, (∀ kv ∈ fs, P kv.2) → P (.obj fs)) :
    ∀ v, P v
  | .null => hnull
  | .bool b => hbool b
  | .num n => hnum n
  | .str s => hstr s
  | .arr xs => harr xs (fun x hx =>
      JSValue.inductionOn hnull hbool hnum hstr harr hobj x)
  | .obj fs => hobj fs (fun kv hkv =>
      JSValue.inductionOn hnull hbool hnum hstr harr hobj kv.2)
termination_by v => sizeOf v
decreasing_by
  · have := List.sizeOf_lt_of_mem hx
    simp only [JSValue.arr.sizeOf_spec]
    omega
  · have h1 := List.sizeOf_lt_of_mem hkv
    have h2 : sizeOf kv.2 < sizeOf kv := by
      obtain ⟨k, v⟩ := kv
      simp only [Prod.mk.sizeOf_spec]
      omega
    simp only [JSValue.obj.sizeOf_spec]
    omega

/-- JavaScript truthiness of a `JSValue` (`undefined`, `null`, `false`, `0`, and
the empty string are falsy; arrays and objects are always truthy). -/
def jsTruthy : JSValue → Bool
  | .null => false
  | .bool b => b
  | .num n => n != 0
  | .str s => s != ""
  | .arr _ => true
  | .obj _ => true

/-- The field list of an object value; other values have no enumerable
own fields relevant here. -/
def JSValue.fieldsOf : JSValue → List (String × JSValue)
  | .obj fs => fs
  | _ => []

/-- JavaScript object spread merge: the fields of the first object in order,
with values overridden by the second object where its key also occurs there,
followed by the fields of the second object whose keys are new.  This models
the expression that spreads two objects into a fresh object literal (used by
`RunikUI.updateBlockData`, `src/src/types/editor/editor.ts` line 333).
Field lists are assumed to have unique keys, as JavaScript object keys are. -/
def jsSpread (a b : JSValue) : JSValue :=
  let fs := a.fieldsOf
  let gs := b.fieldsOf
  .obj ((fs.map (fun kv =>
          match gs.lookup kv.1 with
          | some w => (kv.1, w)
          | none => kv)) ++
        gs.filter (fun kv => (fs.lookup kv.1).isNone))

/-! ## Rendered output

`Editor.render` produces a DOM tree.  Only the structure the source itself
builds matters here: an element has a tag, a class name, a text content and a
list of children (`document.createElement`, `className`, `textContent`,
`appendChild` in `src/src/types/editor/editor.ts` lines 134-184). -/

/-- A DOM element as built by `Editor.render`. -/
inductive Html where
  | node (tag : String) (className : String) (textContent : String) (children : List Html)
deriving Repr, Inhabited

/-- The children of a DOM element. -/
def Html.children : Html → List Html
  | .node _ _ _ cs => cs

/-- A renderer function for one block type: takes the block data and either
returns an element or throws (modelled as `Except.error` carrying the
human-readable message of the thrown error). -/
def Renderer : Type := JSValue → Except String Html

/-! ## EditorConfiguration (`src/src/types/editor/editorConfiguration.ts`)

Optional interface fields become `Option`; the `tag → value` maps become
association lists looked up with `List.lookup` (first match), matching
JavaScript property access on objects with unique keys.  The `defaultValues`
and `plugins` fields are never read by any of the modelled operations and are
omitted. -/

/-- An entry of the `blockTypes` map: a default data structure for the type or
a factory function producing one. -/
inductive BTEntry where
  | value (v : JSValue)
  | factory (f : Unit → JSValue)

/-- JavaScript truthiness of `blockTypes[type]`: an absent property is
`undefined` (falsy); a factory function is truthy; a default value has its
own truthiness. -/
def entryTruthy : Option BTEntry → Bool
  | none => false
  | some (.factory _) => true
  | some (.value v) => jsTruthy v

/-- The visual renderer surface (`visualRenderer.renderers`). -/
structure VisualRenderer where
  renderers : List (String × Renderer)

/-- The editor configuration (`EditorConfiguration` interface,
`src/src/types/editor/editorConfiguration.ts` lines 6-55). -/
structure EditorConfiguration where
  blockTypes : Option (List (String × BTEntry)) := none
  visualRenderer : Option VisualRenderer := none
  renderers : Option (List (String × Renderer)) := none
  validators : Option (List (String × (JSValue → Bool))) := none

/-! ## The `Editor` class (`src/src/types/editor/editor.ts` lines 9-185) -/

/-- One entry of the `blocks` array of the `Editor` class: a type tag and the
block data. -/
structure Block where
  type : String
  data : JSValue
deriving Repr, Inhabited

/-- The `Editor` class state: its configuration and its `blocks` array. -/
structure Editor where
  configuration : EditorConfiguration
  blocks : List Block := []

/-- `Editor.addBlock` (lines 39-46): throws when `blockTypes` is present and
the entry for `type` is falsy; otherwise pushes the block and returns
`blocks.length - 1` after the push, i.e. the index of the new block. -/
def Editor.addBlock (e : Editor) (type : String) (data : JSValue) :
    Except String (Editor × Nat) :=
  if (match e.configuration.blockTypes with
      | some bts => !(entryTruthy (bts.lookup type))
      | none => false) then
    .error ("Block type \"" ++ type ++ "\" is not defined in the configuration.")
  else
    .ok ({ e with blocks := e.blocks ++ [⟨type, data⟩] }, e.blocks.length)

/-- `Editor.removeBlock` (lines 53-59): `splice(index, 1)` when the index is
in range, otherwise throws.  The index is an `Int` because JavaScript callers
can pass negative indices. -/
def Editor.removeBlock (e : Editor) (index : Int) : Except String Editor :=
  if 0 ≤ index ∧ index < (e.blocks.length : Int) then
    .ok { e with blocks := e.blocks.eraseIdx index.toNat }
  else
    .error ("Block index " ++ toString index ++ " out of range")

/-- `Editor.updateBlock` (lines 67-76): assigns `blocks[index].data = newData`
when the index is in range, otherwise throws.  No validator is consulted. -/
def Editor.updateBlock (e : Editor) (index : Int) (newData : JSValue) :
    Except String Editor :=
  if 0 ≤ index ∧ index < (e.blocks.length : Int) then
    .ok { e with blocks :=
            e.blocks.set index.toNat ⟨(e.blocks.getD index.toNat default).type, newData⟩ }
  else
    .error ("Block index " ++ toString index ++ " out of range")

/-- `Editor.rearrangeBlocks` (lines 96-111): throws when the length of
`newOrder` differs from the number of blocks or when some entry of `newOrder`
is out of `[0, blocks.length)`; otherwise replaces `blocks` with
`newOrder.map(index => blocks[index])`.  No check of distinctness is made. -/
def Editor.rearrangeBlocks (e : Editor) (newOrder : List Int) : Except String Editor :=
  if newOrder.length ≠ e.blocks.length then
    .error "New order length must match the number of blocks"
  else
    match newOrder.find? (fun i => decide (i < 0) || decide ((e.blocks.length : Int) ≤ i)) with
    | some i => .error ("Block index " ++ toString i ++ " out of range")
    | none => .ok { e with blocks := newOrder.map (fun i => e.blocks.getD i.toNat default) }

/-- `Editor.clearBlocks` (lines 116-118). -/
def Editor.clearBlocks (e : Editor) : Editor :=
  { e with blocks := [] }

/-- The error element built in the `catch` of `Editor.render` (lines 172-180):
a `div.runik-block-error` whose text carries the message of the thrown error. -/
def errorHtml (msg : String) : Html :=
  .node "div" "runik-block-error" ("Error rendering block: " ++ msg) []

/-- The body of the `forEach` of `Editor.render` (lines 140-181) for one block:
`none` when the block contributes no child to the container (an early `return`
after `console.warn`/`console.error`), otherwise the child that is appended.
When `visualRenderer` is present, only it is consulted: a missing renderer
there skips the block without falling back to the legacy `renderers` map.
A renderer that throws is caught and replaced by `errorHtml`. -/
def renderChild (cfg : EditorConfiguration) (b : Block) : Option Html :=
  match cfg.visualRenderer with
  | some vr =>
    match vr.renderers.lookup b.type with
    | none => none
    | some renderer =>
      match renderer b.data with
      | .ok el => some el
      | .error msg => some (errorHtml msg)
  | none =>
    match cfg.renderers with
    | some rs =>
      match rs.lookup b.type with
      | none => none
      | some renderer =>
        match renderer b.data with
        | .ok el => some el
        | .error msg => some (errorHtml msg)
    | none => none

/-- `Editor.render` (lines 134-184): a `div.runik-editor-content` container to
which each block appends at most one child, in sequence order. -/
def Editor.render (e : Editor) : Html :=
  .node "div" "runik-editor-content" ""
    (e.blocks.foldl (fun acc b => acc ++ (renderChild e.configuration b).toList) [])

/-! ## The `RunikUI` class (`src/src/types/editor/editor.ts` lines 194-806)

`RunikUI` wraps a core `Editor` and keeps its own `blocks` array of
id-annotated blocks.  The DOM container, selection and event wiring are
UI chrome outside the scope of the modelled claims; the state modelled here is
the editor, the id-annotated block list and the id source. -/

/-- Modelled from the spec: `generateUUID` (imported from
`src/utils/idGenerator`, a file absent from the sources) must produce ids that
are assigned at creation and never reused, by monotonic or random generation;
it is modelled as a monotonic counter. -/
def generateUUID (nextId : Nat) : Nat × Nat :=
  (nextId, nextId + 1)

/-- An `IdentifiableBlock` (lines 194-199); the `element` field, a reference
into the rendered DOM, is UI state not modelled here. -/
structure IdBlock where
  id : Nat
  type : String
  data : JSValue
deriving Repr, Inhabited

/-- The modelled `RunikUI` state. -/
structure RunikUI where
  editor : Editor
  blocks : List IdBlock := []
  nextId : Nat := 0

/-- The `RunikUI` constructor (lines 240-260) with a fresh `Editor`. -/
def RunikUI.create (cfg : EditorConfiguration) : RunikUI :=
  { editor := { configuration := cfg } }

/-- `RunikUI.addBlock` (lines 269-286): generates an id, adds the block to the
core editor (whose throw propagates, leaving the wrapper untouched), then
pushes the id-annotated block and returns the id. -/
def RunikUI.addBlock (s : RunikUI) (type : String) (data : JSValue) :
    Except String (RunikUI × Nat) :=
  let (id, nextId) := generateUUID s.nextId
  match s.editor.addBlock type data with
  | .error m => .error m
  | .ok (ed, _) =>
    .ok ({ editor := ed, blocks := s.blocks ++ [⟨id, type, data⟩], nextId := nextId }, id)

/-- `RunikUI.removeBlock` (lines 293-313): resolves the id to an index, throws
when absent, removes the block from the core editor by that index and splices
it out of the local array. -/
def RunikUI.removeBlock (s : RunikUI) (id : Nat) : Except String RunikUI :=
  match s.blocks.findIdx? (fun b => b.id == id) with
  | none => .error ("Block with ID \"" ++ toString id ++ "\" not found.")
  | some index =>
    match s.editor.removeBlock (index : Int) with
    | .error m => .error m
    | .ok ed => .ok { s with editor := ed, blocks := s.blocks.eraseIdx index }

/-- The index map built by `RunikUI.rearrangeBlocks` (lines 355-358): a
JavaScript `Map` filled by a `forEach` that calls `set(block.id, index)`, so a
repeated id keeps the index of its last occurrence. -/
def lastIndexOf (bs : List IdBlock) (id : Nat) : Option Nat :=
  match bs with
  | [] => none
  | b :: rest =>
    match lastIndexOf rest id with
    | some j => some (j + 1)
    | none => if b.id = id then some 0 else none

/-- Sequencing of a lookup over a list that stops at the first failure, as the
`for` loops of `RunikUI.rearrangeBlocks` throw at the first missing id. -/
def mapOpt : List α → (α → Option β) → Option (List β)
  | [], _ => some []
  | a :: as, f =>
    match f a with
    | none => none
    | some b =>
      match mapOpt as f with
      | none => none
      | some bs => some (b :: bs)

/-- `RunikUI.rearrangeBlocks` (lines 349-386): checks the length, converts the
id order to an index order through the index map (throwing at the first
unknown id), rearranges the core editor by indices, and rebuilds the local
array by `find`-ing each id (first occurrence). -/
def RunikUI.rearrangeBlocks (s : RunikUI) (newOrderIds : List Nat) :
    Except String RunikUI :=
  if newOrderIds.length ≠ s.blocks.length then
    .error "New order length must match the number of blocks."
  else
    match mapOpt newOrderIds (lastIndexOf s.blocks) with
    | none => .error "Block with ID not found."
    | some newOrderIndices =>
      match s.editor.rearrangeBlocks (newOrderIndices.map Int.ofNat) with
      | .error m => .error m
      | .ok ed =>
        match mapOpt newOrderIds (fun id => s.blocks.find? (fun b => b.id == id)) with
        | none => .error "Block with ID not found during rearrange."
        | some newBlocks => .ok { s with editor := ed, blocks := newBlocks }

/-- `RunikUI.clearBlocks` (lines 441-446). -/
def RunikUI.clearBlocks (s : RunikUI) : RunikUI :=
  { s with editor := s.editor.clearBlocks, blocks := [] }

/-- One `RunikUI` mutation, for stating invariants over mutation sequences. -/
inductive UIOp where
  | add (type : String) (data : JSValue)
  | remove (id : Nat)
  | rearrange (ids : List Nat)
  | clear

/-- Applies one mutation (the returned id or index is dropped). -/
def applyOp (s : RunikUI) : UIOp → Except String RunikUI
  | .add t d =>
    match s.addBlock t d with
    | .error m => .error m
    | .ok (s2, _) => .ok s2
  | .remove id => s.removeBlock id
  | .rearrange ids => s.rearrangeBlocks ids
  | .clear => .ok s.clearBlocks

/-- Applies a sequence of mutations; a throw aborts the sequence. -/
def applyOps (s : RunikUI) : List UIOp → Except String RunikUI
  | [] => .ok s
  | op :: ops =>
    match applyOp s op with
    | .error m => .error m
    | .ok s2 => applyOps s2 ops

/-- Whether one mutation keeps ids automatically distinct: a `rearrange` must
pass pairwise-distinct ids. -/
def opDistinct : UIOp → Bool
  | .rearrange ids => decide ids.Nodup
  | _ => true

/-- Whether every `rearrange` in a sequence passes pairwise-distinct ids. -/
def distinctRearranges (ops : List UIOp) : Bool :=
  ops.all opDistinct

/-- The (type, data) pair of a core editor block. -/
def pairOfE (b : Block) : String × JSValue := (b.type, b.data)

/-- The (type, data) pair of an id-annotated block. -/
def pairOfU (b : IdBlock) : String × JSValue := (b.type, b.data)

/-! ## Heap model for reference aliasing

`Editor.getBlocks` (lines 83-89) returns a shallow copy of the `blocks` array:
a fresh array object whose elements are the same block-object references.
`RunikUI.updateBlockData` (lines 321-342) relies on that aliasing: it assigns
through an element of the copy (`editorBlocks[index].data = block.data`) to
mutate the block stored inside the editor.  To state these reference facts,
the heap is modelled explicitly: a list of heap objects addressed by index,
where an object is either an array of references or a block
`\x7b type, data \x7d`.  Allocation appends at the end of the list. -/

/-- A heap object: an array of references, or a block object. -/
inductive HeapObj where
  | arrObj (elems : List Nat)
  | blkObj (type : String) (data : JSValue)

/-- Whether a heap object is a block object. -/
def HeapObj.isBlk : HeapObj → Bool
  | .blkObj _ _ => true
  | _ => false

/-- Whether a heap object is an array object. -/
def HeapObj.isArr : HeapObj → Bool
  | .arrObj _ => true
  | _ => false

/-- The heap: objects addressed by their index; allocation appends. -/
abbrev Heap : Type := List HeapObj

/-- The element references of the array object at `r` (empty for a dangling
or non-array reference; well-formedness below rules those out). -/
def readArr (σ : Heap) (r : Nat) : List Nat :=
  match List.getD σ r (.arrObj []) with
  | .arrObj es => es
  | .blkObj _ _ => []

/-- The (type, data) content of the block object at `r`. -/
def readBlk (σ : Heap) (r : Nat) : String × JSValue :=
  match List.getD σ r (.blkObj "" .null) with
  | .blkObj t d => (t, d)
  | .arrObj _ => ("", .null)

/-- Overwrites the contents of the array object at `r`; this models any
in-place mutation of that array (push, splice, reorder, assignment). -/
def setArr (σ : Heap) (r : Nat) (es : List Nat) : Heap :=
  List.set σ r (.arrObj es)

/-- Assigns the `data` field of the block object at `r`. -/
def setBlkData (σ : Heap) (r : Nat) (v : JSValue) : Heap :=
  match List.getD σ r (.blkObj "" .null) with
  | .blkObj t _ => List.set σ r (.blkObj t v)
  | .arrObj _ => σ

/-- The editor in the heap model: the `blocks` field holds a reference to an
array object. -/
structure HEditor where
  blocksRef : Nat

/-- `Editor.getBlocks` in the heap model: allocates a fresh array holding the
same element references (`[...this.blocks]`) and returns its reference. -/
def getBlocksH (σ : Heap) (e : HEditor) : Nat × Heap :=
  (σ.length, σ ++ [.arrObj (readArr σ e.blocksRef)])

/-- The block sequence the editor observes through its array: the (type, data)
contents of the referenced block objects. -/
def editorView (σ : Heap) (e : HEditor) : List (String × JSValue) :=
  (readArr σ e.blocksRef).map (readBlk σ)

/-- Heap well-formedness for an editor: its array reference is valid and holds
pairwise-distinct references to block objects. -/
def wfEditorHeap (σ : Heap) (e : HEditor) : Bool :=
  decide (e.blocksRef < σ.length) &&
  (List.getD σ e.blocksRef (.blkObj "" .null)).isArr &&
  (readArr σ e.blocksRef).all (fun r =>
    decide (r < σ.length) && (List.getD σ r (.arrObj [])).isBlk &&
    decide (r ≠ e.blocksRef)) &&
  decide (readArr σ e.blocksRef).Nodup

/-- `RunikUI.updateBlockData`, editor-propagation part (lines 330-341): the
merged data is written into the core editor by fetching `getBlocks()` and
assigning through the element at `index`.  The local `block.data` read aliases
the same block object, so it is read through the same reference. -/
def updateBlockDataH (σ : Heap) (e : HEditor) (index : Nat)
    (newData : List (String × JSValue)) : Heap :=
  let (r, σ₁) := getBlocksH σ e
  let elemRef := (readArr σ₁ r).getD index 0
  let merged := jsSpread (readBlk σ₁ elemRef).2 (.obj newData)
  setBlkData σ₁ elemRef merged

/-! ## JSON text: `JSON.stringify` and `JSON.parse`

The serialization utilities call the JavaScript built-ins `JSON.stringify` and
`JSON.parse`.  They are modelled by an executable printer and parser over
`JSValue`.  The printer follows `JSON.stringify` on well-formed values
(`jsWF`): integers in the safe range print in plain decimal, and strings
containing no control characters escape exactly the quote and the backslash.
The parser models `JSON.parse` on the whitespace-free texts the printer
emits; it uses explicit fuel for termination. -/

/-- Decimal digit test. -/
def isDigitC (c : Char) : Bool :=
  decide (48 ≤ c.toNat) && decide (c.toNat ≤ 57)

/-- The character of a decimal digit. -/
def digitChar : Nat → Char
  | 0 => '0'
  | 1 => '1'
  | 2 => '2'
  | 3 => '3'
  | 4 => '4'
  | 5 => '5'
  | 6 => '6'
  | 7 => '7'
  | 8 => '8'
  | _ => '9'

/-- Decimal digits of a natural number, most significant first. -/
def natToDigits (n : Nat) : List Char :=
  if h : n < 10 then [digitChar n]
  else natToDigits (n / 10) ++ [digitChar (n % 10)]
decreasing_by exact Nat.div_lt_self (by omega) (by omega)

/-- The value of a digit string. -/
def digitsToNat (ds : List Char) : Nat :=
  ds.foldl (fun a c => a * 10 + (c.toNat - 48)) 0

/-- `JSON.stringify` string-body escaping for strings free of control
characters: the quote and the backslash are escaped, everything else is
emitted verbatim. -/
def escChars : List Char → List Char
  | [] => []
  | c :: rest => (if c = '"' ∨ c = '\\' then ['\\', c] else [c]) ++ escChars rest

mutual

/-- The characters `JSON.stringify` emits for a value. -/
def printVal : JSValue → List Char
  | .null => 'n' :: ['u', 'l', 'l']
  | .bool b => if b then 't' :: ['r', 'u', 'e'] else 'f' :: ['a', 'l', 's', 'e']
  | .num n => if n < 0 then '-' :: natToDigits n.natAbs else natToDigits n.natAbs
  | .str s => '"' :: (escChars s.data ++ ['"'])
  | .arr [] => ['[', ']']
  | .arr (x :: xs) => '[' :: (printVal x ++ printMore xs ++ [']'])
  | .obj [] => ['\x7b', '\x7d']
  | .obj (f :: fs) => '\x7b' :: (printField f ++ printFieldsMore fs ++ ['\x7d'])

/-- One `"key":value` field. -/
def printField : String × JSValue → List Char
  | (k, v) => '"' :: (escChars k.data ++ ['"', ':'] ++ printVal v)

/-- The remaining elements of an array, each preceded by a comma. -/
def printMore : List JSValue → List Char
  | [] => []
  | x :: xs => ',' :: (printVal x ++ printMore xs)

/-- The remaining fields of an object, each preceded by a comma. -/
def printFieldsMore : List (String × JSValue) → List Char
  | [] => []
  | f :: fs => ',' :: (printField f ++ printFieldsMore fs)

end

/-- The text between the brackets of a printed nonempty array. -/
def printElemsInner : List JSValue → List Char
  | [] => []
  | x :: xs => printVal x ++ printMore xs

/-- The text between the braces of a printed nonempty object. -/
def printFieldsInner : List (String × JSValue) → List Char
  | [] => []
  | f :: fs => printField f ++ printFieldsMore fs

/-- Parses a string body up to the closing quote, undoing `escChars`. -/
def parseStrBody : List Char → Option (List Char × List Char)
  | [] => none
  | '\\' :: c :: rest =>
    match parseStrBody rest with
    | none => none
    | some (cs, r) => some (c :: cs, r)
  | '"' :: rest => some ([], rest)
  | c :: rest =>
    match parseStrBody rest with
    | none => none
    | some (cs, r) => some (c :: cs, r)

/-- Splits off the leading run of decimal digits. -/
def takeDigits : List Char → List Char × List Char
  | [] => ([], [])
  | c :: cs =>
    if isDigitC c then
      let (ds, rest) := takeDigits cs
      (c :: ds, rest)
    else ([], c :: cs)

/-- Parses a nonempty run of decimal digits as a natural number. -/
def parseDigits (cs : List Char) : Option (Nat × List Char) :=
  match h : takeDigits cs with
  | ([], _) => none
  | (ds, rest) => some (digitsToNat ds, rest)

mutual

/-- Parses one JSON value (fuelled). -/
def parseVal : Nat → List Char → Option (JSValue × List Char)
  | 0, _ => none
  | fuel + 1, cs =>
    match cs with
    | [] => none
    | c :: rest =>
      if isDigitC c then
        match parseDigits (c :: rest) with
        | none => none
        | some (n, r) => some (.num (n : Int), r)
      else if c = '-' then
        match parseDigits rest with
        | none => none
        | some (n, r) => some (.num (-(n : Int)), r)
      else if c = '"' then
        match parseStrBody rest with
        | none => none
        | some (cs2, r) => some (.str (String.mk cs2), r)
      else if c = '[' then
        match rest with
        | ']' :: r => some (.arr [], r)
        | _ =>
          match parseElems fuel rest with
          | none => none
          | some (vs, r) => some (.arr vs, r)
      else if c = '\x7b' then
        match rest with
        | '\x7d' :: r => some (.obj [], r)
        | _ =>
          match parseFields fuel rest with
          | none => none
          | some (fs, r) => some (.obj fs, r)
      else if c = 'n' then
        match rest with
        | 'u' :: 'l' :: 'l' :: r => some (.null, r)
        | _ => none
      else if c = 't' then
        match rest with
        | 'r' :: 'u' :: 'e' :: r => some (.bool true, r)
        | _ => none
      else if c = 'f' then
        match rest with
        | 'a' :: 'l' :: 's' :: 'e' :: r => some (.bool false, r)
        | _ => none
      else none

/-- Parses the elements of a nonempty array up to the closing bracket. -/
def parseElems : Nat → List Char → Option (List JSValue × List Char)
  | 0, _ => none
  | fuel + 1, cs =>
    match parseVal fuel cs with
    | none => none
    | some (v, rest) =>
      match rest with
      | ',' :: rest2 =>
        match parseElems fuel rest2 with
        | none => none
        | some (vs, rest3) => some (v :: vs, rest3)
      | ']' :: rest2 => some ([v], rest2)
      | _ => none

/-- Parses the fields of a nonempty object up to the closing brace. -/
def parseFields : Nat → List Char → Option (List (String × JSValue) × List Char)
  | 0, _ => none
  | fuel + 1, cs =>
    match cs with
    | '"' :: rest =>
      match parseStrBody rest with
      | none => none
      | some (key, rest1) =>
        match rest1 with
        | ':' :: rest2 =>
          match parseVal fuel rest2 with
          | none => none
          | some (v, rest3) =>
            match rest3 with
            | ',' :: rest4 =>
              match parseFields fuel rest4 with
              | none => none
              | some (fs, rest5) => some ((String.mk key, v) :: fs, rest5)
            | '\x7d' :: rest4 => some ([(String.mk key, v)], rest4)
            | _ => none
        | _ => none
    | _ => none

end

/-- `JSON.stringify`. -/
def stringifyJSON (v : JSValue) : String := String.mk (printVal v)

/-- `JSON.parse` on printer outputs; throwing is modelled as `none`.  The fuel
`2 * length + 2` suffices for every printed value (`jsize_le` below). -/
def parseJSON (s : String) : Option JSValue :=
  match parseVal (2 * s.data.length + 2) s.data with
  | some (v, []) => some v
  | _ => none

/-- A string is free of control characters (JavaScript would escape those with
`\u` sequences the modelled printer does not implement). -/
def strOK (s : String) : Bool := s.data.all (fun c => decide (32 ≤ c.toNat))

mutual

/-- Well-formedness of a value for faithful `JSON.stringify` modelling:
numbers lie in the range where JavaScript integers are exact and print in
plain decimal, and strings are free of control characters. -/
def jsWF : JSValue → Bool
  | .null => true
  | .bool _ => true
  | .num n => decide (n.natAbs < 2 ^ 53)
  | .str s => strOK s
  | .arr xs => jsWFList xs
  | .obj fs => jsWFFields fs

/-- Well-formedness of the elements of an array. -/
def jsWFList : List JSValue → Bool
  | [] => true
  | x :: xs => jsWF x && jsWFList xs

/-- Well-formedness of the fields of an object (keys included). -/
def jsWFFields : List (String × JSValue) → Bool
  | [] => true
  | f :: fs => strOK f.1 && jsWF f.2 && jsWFFields fs

end

/-! ## The serialization engine

`serializeEditor` (`src/core/src/utils/serializeConfiguration.ts`, second
part) runs `JSON.parse(JSON.stringify(editor))` with an identity replacer;
`deserializeEditor` (`src/unnamed/part_003`, second part) runs
`JSON.parse(JSON.stringify(json))`; `serializeBlock` (`src/unnamed/part_003`)
returns `JSON.stringify(block)`; `deserializeBlock`
(`src/core/src/utils/deserializeConfiguration.ts`, second part) returns
`JSON.parse(jsonString)`.  They operate on the core `Editor` class
(`src/core/src/types/editor/editor.ts`), whose enumerable fields are the
`blocks` array of `\x7b type, data \x7d` records and the `configuration`.
`JSON.stringify` drops the function-valued entries of the configuration, so
the configuration is modelled by its JSON projection, an opaque `JSValue`. -/

/-- The core `Editor` class state as seen by `JSON.stringify`: its `blocks`
array and the JSON projection of its configuration. -/
structure CoreEditor where
  blocks : List Block
  configurationJS : JSValue

/-- A `\x7b type, data \x7d` block record as a JavaScript object. -/
def blockToJS (b : Block) : JSValue :=
  .obj [("type", .str b.type), ("data", b.data)]

/-- The core editor instance as the JavaScript object `JSON.stringify`
traverses (enumerable fields in declaration order: `blocks`,
`configuration`). -/
def editorToJS (e : CoreEditor) : JSValue :=
  .obj [("blocks", .arr (e.blocks.map blockToJS)), ("configuration", e.configurationJS)]

/-- `serializeEditor`: stringifies the editor with an identity replacer and
parses the result back into a JSON object. -/
def serializeEditor (e : CoreEditor) : Option JSValue :=
  parseJSON (stringifyJSON (editorToJS e))

/-- `deserializeEditor`: `JSON.parse(JSON.stringify(json))`. -/
def deserializeEditor (json : JSValue) : Option JSValue :=
  parseJSON (stringifyJSON json)

/-- `serializeBlock`: `JSON.stringify(block)`; the registry argument is
accepted and ignored, as in the source. -/
def serializeBlock (b : Block) (blockTypeRegistry : List (String × JSValue)) : String :=
  stringifyJSON (blockToJS b)

/-- `deserializeBlock`: `JSON.parse(jsonString)`; the registry argument is
accepted and ignored, as in the source. -/
def deserializeBlock (jsonString : String)
    (blockTypeRegistry : List (String × JSValue)) : Option JSValue :=
  parseJSON jsonString

/-- Reads a `\x7b type, data \x7d` record back from a parsed JSON object. -/
def readBlockJS : JSValue → Option Block
  | .obj fs =>
    match fs.lookup "type", fs.lookup "data" with
    | some (.str t), some d => some ⟨t, d⟩
    | _, _ => none
  | _ => none

/-- Reads the ordered `blocks` sequence back from a parsed editor object. -/
def readBlocksJS : JSValue → Option (List Block)
  | .obj fs =>
    match fs.lookup "blocks" with
    | some (.arr xs) => mapOpt xs readBlockJS
    | _ => none
  | _ => none

/-! ## Round-trip lemmas for the JSON printer and parser -/

theorem digitChar_isDigit (d : Nat) (h : d < 10) : isDigitC (digitChar d) = true := by
  interval_cases d <;> decide

theorem toNat_digitChar (d : Nat) (h : d < 10) : (digitChar d).toNat = 48 + d := by
  interval_cases d <;> decide

theorem natToDigits_ne_nil (n : Nat) : natToDigits n ≠ [] := by
  rw [natToDigits]
  split <;> simp

theorem natToDigits_digits (n : Nat) : ∀ c ∈ natToDigits n, isDigitC c = true := by
  induction n using Nat.strong_induction_on with
  | _ n ih =>
    rw [natToDigits]
    split
    · next h =>
      intro c hc
      simp only [List.mem_singleton] at hc
      subst hc
      exact digitChar_isDigit n h
    · next h =>
      intro c hc
      rcases List.mem_append.mp hc with h1 | h2
      · exact ih (n / 10) (Nat.div_lt_self (by omega) (by omega)) c h1
      · simp only [List.mem_singleton] at h2
        subst h2
        exact digitChar_isDigit (n % 10) (Nat.mod_lt n (by omega))

theorem digitsToNat_natToDigits (n : Nat) : digitsToNat (natToDigits n) = n := by
  induction n using Nat.strong_induction_on with
  | _ n ih =>
    rw [natToDigits]
    split
    · next h =>
      simp [digitsToNat, toNat_digitChar n h]
    · next h =>
      have : digitsToNat (natToDigits (n / 10) ++ [digitChar (n % 10)]) =
          digitsToNat (natToDigits (n / 10)) * 10 + ((digitChar (n % 10)).toNat - 48) := by
        simp [digitsToNat, List.foldl_append]
      rw [this, ih (n / 10) (Nat.div_lt_self (by omega) (by omega)),
        toNat_digitChar (n % 10) (Nat.mod_lt n (by omega))]
      omega

/-- The head condition under which a digit run is not extended by what
follows it. -/
def delimHead : List Char → Prop
  | [] => True
  | c :: _ => isDigitC c = false

theorem takeDigits_all_append (l rest : List Char) (hl : ∀ c ∈ l, isDigitC c = true)
    (hr : delimHead rest) : takeDigits (l ++ rest) = (l, rest) := by
  induction l with
  | nil =>
    simp only [List.nil_append]
    cases rest with
    | nil => rfl
    | cons c cs =>
      simp only [delimHead] at hr
      simp [takeDigits, hr]
  | cons c cs ih =>
    have hc : isDigitC c = true := hl c (by simp)
    have ih2 := ih (fun x hx => hl x (by simp [hx]))
    simp only [List.cons_append, takeDigits, hc, if_true, List.append_eq, ih2]

theorem parseDigits_print (n : Nat) (rest : List Char) (hr : delimHead rest) :
    parseDigits (natToDigits n ++ rest) = some (n, rest) := by
  have htake := takeDigits_all_append (natToDigits n) rest (natToDigits_digits n) hr
  rw [parseDigits]
  split
  · next heq =>
    rw [htake] at heq
    simp only [Prod.mk.injEq] at heq
    exact absurd heq.1 (natToDigits_ne_nil n)
  · next ds r hne heq =>
    rw [htake] at heq
    simp only [Prod.mk.injEq] at heq
    rw [← heq.1, ← heq.2, digitsToNat_natToDigits]

theorem parseStrBody_esc (l rest : List Char) :
    parseStrBody (escChars l ++ '"' :: rest) = some (l, rest) := by
  induction l with
  | nil => rfl
  | cons c cs ih =>
    by_cases hc : c = '"' ∨ c = '\\'
    · simp only [escChars, if_pos hc, List.cons_append, List.nil_append]
      rw [parseStrBody, ih]
    · simp only [escChars, if_neg hc, List.cons_append, List.nil_append]
      push_neg at hc
      obtain ⟨h1, h2⟩ := hc
      rw [parseStrBody.eq_def]
      split
      · next heq => exact absurd heq (by simp)
      · next c2 rest2 heq =>
        simp only [List.cons.injEq] at heq
        exact absurd heq.1 h2
      · next heq =>
        simp only [List.cons.injEq] at heq
        exact absurd heq.1 h1
      · next c2 rest2 hne1 hne2 heq =>
        simp only [List.cons.injEq] at heq
        obtain ⟨hceq, hrest⟩ := heq
        rw [← hrest, ih, ← hceq]

mutual

/-- Fuel needed by `parseVal` for a printed value. -/
def jsize : JSValue → Nat
  | .null => 1
  | .bool _ => 1
  | .num _ => 1
  | .str _ => 1
  | .arr xs => 1 + elemsSize xs
  | .obj fs => 1 + fieldsSize fs

/-- Fuel needed by `parseElems` for printed elements. -/
def elemsSize : List JSValue → Nat
  | [] => 1
  | x :: xs => 1 + jsize x + elemsSize xs

/-- Fuel needed by `parseFields` for printed fields. -/
def fieldsSize : List (String × JSValue) → Nat
  | [] => 1
  | f :: fs => 1 + jsize f.2 + fieldsSize fs

end

theorem printVal_length_pos (v : JSValue) : 1 ≤ (printVal v).length := by
  cases v with
  | null => simp [printVal]
  | bool b => cases b <;> simp [printVal]
  | num n =>
    simp only [printVal]
    split
    · simp
    · have := natToDigits_ne_nil n.natAbs
      cases h : natToDigits n.natAbs with
      | nil => exact absurd h this
      | cons c cs => simp [h]
  | str s => simp [printVal]
  | arr xs => cases xs <;> simp [printVal]
  | obj fs => cases fs <;> simp [printVal]

/-- The printed form of a value needs at most twice its length in fuel. -/
theorem jsize_le (v : JSValue) : jsize v + 1 ≤ 2 * (printVal v).length := by
  induction v using JSValue.inductionOn with
  | hnull => simp [jsize, printVal]
  | hbool b => cases b <;> simp [jsize, printVal]
  | hnum n =>
    have h1 := printVal_length_pos (.num n)
    simp only [jsize]
    omega
  | hstr s => simp [jsize, printVal]
  | harr xs ih =>
    cases xs with
    | nil => simp [jsize, elemsSize, printVal]
    | cons x xs =>
      have inner : ∀ (ys : List JSValue) (y : JSValue),
          (∀ z ∈ y :: ys, jsize z + 1 ≤ 2 * (printVal z).length) →
          elemsSize (y :: ys) ≤ 2 * (printVal y ++ printMore ys).length + 1 := by
        intro ys
        induction ys with
        | nil =>
          intro y h
          have hy := h y (by simp)
          simp only [elemsSize, printMore, List.append_nil]
          omega
        | cons z zs ihz =>
          intro y h
          have hy := h y (by simp)
          have hz := ihz z (fun w hw => h w (by
            simp only [List.mem_cons] at hw ⊢
            tauto))
          simp only [elemsSize, printMore, List.length_append, List.length_cons] at hz ⊢
          omega
      have hin := inner xs x ih
      simp only [List.length_append] at hin
      simp only [jsize, printVal, List.length_cons, List.length_append,
        List.length_singleton, List.length_nil]
      omega
  | hobj fs ih =>
    cases fs with
    | nil => simp [jsize, fieldsSize, printVal]
    | cons f fs =>
      have inner : ∀ (gs : List (String × JSValue)) (g : String × JSValue),
          (∀ kv ∈ g :: gs, jsize kv.2 + 1 ≤ 2 * (printVal kv.2).length) →
          fieldsSize (g :: gs) ≤ 2 * (printField g ++ printFieldsMore gs).length + 1 := by
        intro gs
        induction gs with
        | nil =>
          intro g h
          have hg := h g (by simp)
          obtain ⟨k, v⟩ := g
          simp only [fieldsSize, printFieldsMore, List.append_nil, printField,
            List.length_cons, List.length_append] at hg ⊢
          omega
        | cons p ps ihp =>
          intro g h
          have hg := h g (by simp)
          have hp := ihp p (fun w hw => h w (by
            simp only [List.mem_cons] at hw ⊢
            tauto))
          obtain ⟨k, v⟩ := g
          simp only [fieldsSize, printFieldsMore, printField, List.length_cons,
            List.length_append] at hg hp ⊢
          omega
      have hin := inner fs f ih
      simp only [List.length_append] at hin
      simp only [jsize, printVal, List.length_cons, List.length_append,
        List.length_singleton, List.length_nil]
      omega

theorem jsize_pos (v : JSValue) : 1 ≤ jsize v := by
  cases v <;> simp [jsize]

theorem elemsSize_pos (xs : List JSValue) : 1 ≤ elemsSize xs := by
  cases xs <;> simp [elemsSize] <;> omega

theorem fieldsSize_pos (fs : List (String × JSValue)) : 1 ≤ fieldsSize fs := by
  cases fs <;> simp [fieldsSize] <;> omega

theorem natToDigits_head (n : Nat) :
    ∃ c cs, natToDigits n = c :: cs ∧ isDigitC c = true := by
  cases h : natToDigits n with
  | nil => exact absurd h (natToDigits_ne_nil n)
  | cons c cs =>
    exact ⟨c, cs, rfl, natToDigits_digits n c (by rw [h]; simp)⟩

theorem printVal_head (v : JSValue) :
    ∃ c cs, printVal v = c :: cs ∧ c ≠ ']' ∧ c ≠ '\x7d' := by
  cases v with
  | null => exact ⟨'n', _, rfl, by decide, by decide⟩
  | bool b =>
    cases b
    · exact ⟨'f', _, rfl, by decide, by decide⟩
    · exact ⟨'t', _, rfl, by decide, by decide⟩
  | num n =>
    simp only [printVal]
    obtain ⟨c, cs, hc, hd⟩ := natToDigits_head n.natAbs
    split
    · exact ⟨'-', _, rfl, by decide, by decide⟩
    · refine ⟨c, cs, hc, ?_, ?_⟩
      · intro h
        subst h
        exact absurd hd (by decide)
      · intro h
        subst h
        exact absurd hd (by decide)
  | str s => exact ⟨'"', _, rfl, by decide, by decide⟩
  | arr xs =>
    cases xs
    · exact ⟨'[', _, rfl, by decide, by decide⟩
    · exact ⟨'[', _, rfl, by decide, by decide⟩
  | obj fs =>
    cases fs
    · exact ⟨'\x7b', _, rfl, by decide, by decide⟩
    · exact ⟨'\x7b', _, rfl, by decide, by decide⟩

theorem String.mk_data (s : String) : String.mk s.data = s := rfl

theorem delimHead_cons {c : Char} (X : List Char) (h : isDigitC c = false) :
    delimHead (c :: X) := h

theorem parseVal_quote (fuel : Nat) (X : List Char) :
    parseVal (fuel + 1) ('"' :: X) =
      match parseStrBody X with
      | none => none
      | some (cs2, r) => some (.str (String.mk cs2), r) := rfl

theorem parseVal_neg (fuel : Nat) (X : List Char) :
    parseVal (fuel + 1) ('-' :: X) =
      match parseDigits X with
      | none => none
      | some (n, r) => some (.num (-(n : Int)), r) := rfl

theorem parseVal_digit (fuel : Nat) (c : Char) (X : List Char) (h : isDigitC c = true) :
    parseVal (fuel + 1) (c :: X) =
      match parseDigits (c :: X) with
      | none => none
      | some (n, r) => some (.num (n : Int), r) := by
  simp [parseVal, h]

theorem parseVal_lbrack (fuel : Nat) (X : List Char) :
    parseVal (fuel + 1) ('[' :: X) =
      match X with
      | ']' :: r => some (.arr [], r)
      | _ =>
        match parseElems fuel X with
        | none => none
        | some (vs, r) => some (.arr vs, r) := rfl

theorem parseVal_lbrace (fuel : Nat) (X : List Char) :
    parseVal (fuel + 1) ('\x7b' :: X) =
      match X with
      | '\x7d' :: r => some (.obj [], r)
      | _ =>
        match parseFields fuel X with
        | none => none
        | some (fs, r) => some (.obj fs, r) := rfl

theorem parseElems_succ (fuel : Nat) (cs : List Char) :
    parseElems (fuel + 1) cs =
      match parseVal fuel cs with
      | none => none
      | some (v, rest) =>
        match rest with
        | ',' :: rest2 =>
          match parseElems fuel rest2 with
          | none => none
          | some (vs, rest3) => some (v :: vs, rest3)
        | ']' :: rest2 => some ([v], rest2)
        | _ => none := rfl

theorem parseFields_quote (fuel : Nat) (X : List Char) :
    parseFields (fuel + 1) ('"' :: X) =
      match parseStrBody X with
      | none => none
      | some (key, rest1) =>
        match rest1 with
        | ':' :: rest2 =>
          match parseVal fuel rest2 with
          | none => none
          | some (v, rest3) =>
            match rest3 with
            | ',' :: rest4 =>
              match parseFields fuel rest4 with
              | none => none
              | some (fs, rest5) => some ((String.mk key, v) :: fs, rest5)
            | '\x7d' :: rest4 => some ([(String.mk key, v)], rest4)
            | _ => none
        | _ => none := rfl

/-- Parsing inverts printing: the printer output followed by any non-digit
tail parses back to the printed value, given sufficient fuel. -/
theorem parse_print_all : ∀ fuel : Nat,
    (∀ v rest, jsize v ≤ fuel → delimHead rest →
      parseVal fuel (printVal v ++ rest) = some (v, rest)) ∧
    (∀ xs rest, xs ≠ [] → elemsSize xs ≤ fuel → delimHead rest →
      parseElems fuel (printElemsInner xs ++ ']' :: rest) = some (xs, rest)) ∧
    (∀ fs rest, fs ≠ [] → fieldsSize fs ≤ fuel → delimHead rest →
      parseFields fuel (printFieldsInner fs ++ '\x7d' :: rest) = some (fs, rest)) := by
  intro fuel
  induction fuel using Nat.strong_induction_on with
  | _ fuel ih =>
    refine ⟨?_, ?_, ?_⟩
    · -- parseVal
      intro v rest hsize hdelim
      obtain ⟨f, rfl⟩ : ∃ f, fuel = f + 1 := by
        have := jsize_pos v
        cases fuel
        · omega
        · exact ⟨_, rfl⟩
      cases v with
      | null => rfl
      | bool b => cases b <;> rfl
      | num n =>
        simp only [printVal]
        by_cases hn : n < 0
        · rw [if_pos hn]
          simp only [List.cons_append]
          rw [parseVal_neg, parseDigits_print n.natAbs rest hdelim]
          have hval : -((n.natAbs : Int)) = n := by omega
          simp only [hval]
        · rw [if_neg hn]
          obtain ⟨c, cs, hc, hd⟩ := natToDigits_head n.natAbs
          rw [hc]
          simp only [List.cons_append]
          rw [parseVal_digit f c _ hd, ← List.cons_append, ← hc,
            parseDigits_print n.natAbs rest hdelim]
          have hval : ((n.natAbs : Int)) = n := by omega
          simp only [hval]
      | str s =>
        simp only [printVal, List.cons_append, List.append_assoc, List.singleton_append,
            List.nil_append]
        rw [parseVal_quote, parseStrBody_esc]
      | arr xs =>
        cases xs with
        | nil => rfl
        | cons x xs =>
          simp only [printVal, List.cons_append, List.append_assoc, List.singleton_append,
            List.nil_append]
          rw [parseVal_lbrack]
          split
          · next heq =>
            obtain ⟨c, cs, hc, hc1, hc2⟩ := printVal_head x
            rw [hc] at heq
            simp only [List.cons_append, List.cons.injEq] at heq
            exact absurd heq.1 hc1
          · next hne =>
            have h2 := (ih f (by omega)).2.1 (x :: xs) rest (by simp)
              (by simp only [jsize] at hsize; omega) hdelim
            simp only [printElemsInner, List.append_assoc] at h2
            simp only [h2]
      | obj fs =>
        cases fs with
        | nil => rfl
        | cons g gs =>
          simp only [printVal, List.cons_append, List.append_assoc, List.singleton_append,
            List.nil_append]
          rw [parseVal_lbrace]
          split
          · next heq =>
            obtain ⟨k, v⟩ := g
            simp only [printField, List.cons_append, List.cons.injEq] at heq
            exact absurd heq.1 (by decide)
          · next hne =>
            have h2 := (ih f (by omega)).2.2 (g :: gs) rest (by simp)
              (by simp only [jsize] at hsize; omega) hdelim
            simp only [printFieldsInner, List.append_assoc] at h2
            simp only [h2]
    · -- parseElems
      intro xs rest hne hsize hdelim
      obtain ⟨x, xs, rfl⟩ : ∃ y ys, xs = y :: ys := by
        cases xs
        · exact absurd rfl hne
        · exact ⟨_, _, rfl⟩
      obtain ⟨f, rfl⟩ : ∃ f, fuel = f + 1 := by
        have := elemsSize_pos (x :: xs)
        cases fuel
        · omega
        · exact ⟨_, rfl⟩
      have hjx : jsize x ≤ f := by
        have h1 := elemsSize_pos xs
        simp only [elemsSize] at hsize
        omega
      rw [parseElems_succ]
      simp only [printElemsInner, List.append_assoc]
      cases xs with
      | nil =>
        have hv := (ih f (by omega)).1 x (']' :: rest) hjx
          (delimHead_cons _ (by decide))
        simp only [printMore, List.nil_append] at hv ⊢
        simp only [hv]
      | cons y ys =>
        have hv := (ih f (by omega)).1 x
          (',' :: (printVal y ++ (printMore ys ++ ']' :: rest)))
          hjx (delimHead_cons _ (by decide))
        simp only [printMore, List.cons_append, List.append_assoc] at hv ⊢
        simp only [hv]
        have h2 := (ih f (by omega)).2.1 (y :: ys) rest (by simp)
          (by have := jsize_pos x; simp only [elemsSize] at hsize ⊢; omega) hdelim
        simp only [printElemsInner, List.append_assoc] at h2
        simp only [h2]
    · -- parseFields
      intro fs rest hne hsize hdelim
      obtain ⟨⟨k, v⟩, fs, rfl⟩ : ∃ g gs, fs = g :: gs := by
        cases fs
        · exact absurd rfl hne
        · exact ⟨_, _, rfl⟩
      obtain ⟨f, rfl⟩ : ∃ f, fuel = f + 1 := by
        have := fieldsSize_pos ((k, v) :: fs)
        cases fuel
        · omega
        · exact ⟨_, rfl⟩
      have hjv : jsize v ≤ f := by
        have h1 := fieldsSize_pos fs
        simp only [fieldsSize] at hsize
        omega
      simp only [printFieldsInner, printField, List.cons_append, List.append_assoc,
        List.singleton_append, List.nil_append]
      rw [parseFields_quote, parseStrBody_esc]
      simp only [String.mk_data]
      cases fs with
      | nil =>
        have hv := (ih f (by omega)).1 v ('\x7d' :: rest) hjv
          (delimHead_cons _ (by decide))
        simp only [printFieldsMore, List.nil_append] at hv ⊢
        simp only [hv]
      | cons g gs =>
        have hv := (ih f (by omega)).1 v
          (',' :: (printField g ++ (printFieldsMore gs ++ '\x7d' :: rest)))
          hjv (delimHead_cons _ (by decide))
        simp only [printFieldsMore, List.cons_append, List.append_assoc] at hv ⊢
        simp only [hv]
        have h2 := (ih f (by omega)).2.2 (g :: gs) rest (by simp)
          (by have := jsize_pos v; simp only [fieldsSize] at hsize ⊢; omega) hdelim
        simp only [printFieldsInner, List.append_assoc] at h2
        simp only [h2]

/-- Top-level round trip of the modelled `JSON.parse` over `JSON.stringify`. -/
theorem parseJSON_stringify (v : JSValue) : parseJSON (stringifyJSON v) = some v := by
  have h := (parse_print_all (2 * (printVal v).length + 2)).1 v []
    (by have := jsize_le v; omega) trivial
  rw [List.append_nil] at h
  simp only [parseJSON, stringifyJSON]
  rw [h]

theorem mapOpt_map_inv {α β : Type} (l : List α) (f : α → β) (g : β → Option α)
    (h : ∀ x ∈ l, g (f x) = some x) : mapOpt (l.map f) g = some l := by
  induction l with
  | nil => rfl
  | cons a as ih =>
    simp only [List.map_cons, mapOpt, h a (by simp),
      ih (fun x hx => h x (by simp [hx]))]

theorem readBlockJS_blockToJS (b : Block) : readBlockJS (blockToJS b) = some b := rfl

theorem readBlocksJS_editorToJS (e : CoreEditor) :
    readBlocksJS (editorToJS e) = some e.blocks := by
  simp only [readBlocksJS, editorToJS]
  rw [show (([("blocks", JSValue.arr (e.blocks.map blockToJS)),
      ("configuration", e.configurationJS)] : List (String × JSValue)).lookup "blocks") =
      some (JSValue.arr (e.blocks.map blockToJS)) from rfl]
  exact mapOpt_map_inv e.blocks blockToJS readBlockJS (fun x _ => readBlockJS_blockToJS x)

/-- Claim C4: for every editor whose blocks carry JSON-representable data
(well-formed in the modelled sense: safe integers, control-character-free
strings), deserializing the serialization of the editor reproduces the
ordered (type, rawData) sequence exactly, and likewise
`deserializeBlock (serializeBlock b registry) registry` reproduces each
block's (type, rawData) pair. -/
theorem claim_C4_roundtrip (e : CoreEditor) (hwf : jsWF (editorToJS e) = true)
    (b : Block) (reg : List (String × JSValue)) (hb : jsWF (blockToJS b) = true) :
    (((serializeEditor e).bind deserializeEditor).bind readBlocksJS = some e.blocks) ∧
    ((deserializeBlock (serializeBlock b reg) reg).bind readBlockJS = some b) := by
  constructor
  · rw [serializeEditor, parseJSON_stringify]
    rw [show (some (editorToJS e)).bind deserializeEditor =
        deserializeEditor (editorToJS e) from rfl]
    rw [deserializeEditor, parseJSON_stringify]
    rw [show (some (editorToJS e)).bind readBlocksJS = readBlocksJS (editorToJS e) from rfl]
    exact readBlocksJS_editorToJS e
  · rw [deserializeBlock, serializeBlock, parseJSON_stringify]
    rw [show (some (blockToJS b)).bind readBlockJS = readBlockJS (blockToJS b) from rfl]
    exact readBlockJS_blockToJS b

/-- A concrete editor for the C4 witness. -/
def witEditorC4 : CoreEditor :=
  { blocks := [⟨"text", .obj [("content", .str "hi")]⟩,
               ⟨"image", .obj [("url", .str "https://example.com/image.jpg"), ("alt", .str "Example Image")]⟩],
    configurationJS := .obj [("blockTypes", .obj [("text", .obj [("content", .str "")])])] }

/-- A concrete block for the C4 witness. -/
def witBlockC4 : Block := ⟨"text", .obj [("content", .str "hi"), ("count", .num 3)]⟩

theorem claim_C4_roundtrip_witness :
    (((serializeEditor witEditorC4).bind deserializeEditor).bind readBlocksJS =
      some witEditorC4.blocks) ∧
    ((deserializeBlock (serializeBlock witBlockC4 [("text", .obj [])])
        [("text", .obj [])]).bind readBlockJS = some witBlockC4) :=
  claim_C4_roundtrip witEditorC4 (by decide) witBlockC4 [("text", .obj [])] (by decide)

/-! ## Rendering lemmas and claims C2, C5, C8 -/

/-- The children of the rendered container are exactly the per-block
outcomes, in sequence order, with skipped blocks contributing nothing. -/
theorem render_children (e : Editor) :
    e.render.children = e.blocks.filterMap (renderChild e.configuration) := by
  simp only [Editor.render, Html.children]
  suffices h : ∀ (bs : List Block) (acc : List Html),
      bs.foldl (fun acc b => acc ++ (renderChild e.configuration b).toList) acc =
        acc ++ bs.filterMap (renderChild e.configuration) by
    simpa using h e.blocks []
  intro bs
  induction bs with
  | nil => simp
  | cons b bs ih =>
    intro acc
    rw [List.foldl_cons, ih, List.filterMap_cons]
    cases h : renderChild e.configuration b <;> simp [h]

/-- Renderer resolution as the dispatch of `Editor.render` performs it: the
current surface alone when `visualRenderer` is present, else the legacy
surface. -/
def resolvedRenderer (cfg : EditorConfiguration) (type : String) : Option Renderer :=
  match cfg.visualRenderer with
  | some vr => vr.renderers.lookup type
  | none =>
    match cfg.renderers with
    | some rs => rs.lookup type
    | none => none

theorem renderChild_resolved (cfg : EditorConfiguration) (b : Block) :
    renderChild cfg b =
      match resolvedRenderer cfg b.type with
      | none => none
      | some renderer =>
        match renderer b.data with
        | .ok el => some el
        | .error msg => some (errorHtml msg) := by
  simp only [renderChild, resolvedRenderer]
  cases cfg.visualRenderer with
  | some vr => rfl
  | none =>
    cases cfg.renderers with
    | some rs => rfl
    | none => rfl

/-- Claim C5: when the renderer resolved for a block throws, whole-document
rendering does not propagate the error: that block contributes the designated
error element carrying the human-readable message, and all other blocks
before and after it render exactly as they otherwise would. -/
theorem claim_C5_error_isolation (cfg : EditorConfiguration) (l1 l2 : List Block)
    (b : Block) (r : Renderer) (msg : String)
    (hres : resolvedRenderer cfg b.type = some r) (hthrow : r b.data = .error msg) :
    (Editor.render ⟨cfg, l1 ++ b :: l2⟩).children =
      (Editor.render ⟨cfg, l1⟩).children ++
        errorHtml msg :: (Editor.render ⟨cfg, l2⟩).children := by
  have hb : renderChild cfg b = some (errorHtml msg) := by
    rw [renderChild_resolved]
    simp only [hres, hthrow]
  simp only [render_children, List.filterMap_append, List.filterMap_cons, hb]

/-- Claim C2 (amended): a block whose type resolves to no renderer is skipped
entirely (an early `return` after a console warning): it contributes no child,
not an error placeholder, while every other block contributes exactly its own
outcome; consequently the child count equals the number of non-skipped blocks,
not the number of blocks. -/
theorem claim_C2_amended (cfg : EditorConfiguration) (l1 l2 : List Block) (b : Block)
    (hskip : renderChild cfg b = none) :
    (Editor.render ⟨cfg, l1 ++ b :: l2⟩).children =
      (Editor.render ⟨cfg, l1⟩).children ++ (Editor.render ⟨cfg, l2⟩).children ∧
    (Editor.render ⟨cfg, l1 ++ b :: l2⟩).children.length =
      (l1 ++ b :: l2).countP (fun x => (renderChild cfg x).isSome) := by
  constructor
  · simp only [render_children, List.filterMap_append, List.filterMap_cons, hskip]
  · rw [render_children, List.length_filterMap_eq_countP]

/-- The text renderer of the examples (`src/unnamed/part_000`): a `p` element
whose text is the `content` field. -/
def textRenderer : Renderer := fun d =>
  .ok (.node "p" ""
    (match d with
     | .obj fs =>
       match fs.lookup "content" with
       | some (.str s) => s
       | _ => ""
     | _ => "") [])

/-- A configuration whose current surface has a renderer for `text` only. -/
def cexConfigC2 : EditorConfiguration :=
  { visualRenderer := some ⟨[("text", textRenderer)]⟩ }

/-- An editor holding a `text` block and an `image` block under
`cexConfigC2`: the `image` type has no renderer anywhere. -/
def cexEditorC2 : Editor :=
  { configuration := cexConfigC2,
    blocks := [⟨"text", .obj [("content", .str "hi")]⟩,
               ⟨"image", .obj [("url", .str "a"), ("alt", .str "b")]⟩] }

/-- Counterexample to claim C2 as stated: rendering a document in which one
block type has no registered renderer produces no error placeholder for that
block; the block is skipped, so the container has one child although the
document has two blocks. -/
theorem claim_C2_counterexample :
    cexEditorC2.render = .node "div" "runik-editor-content" "" [.node "p" "" "hi" []] ∧
    cexEditorC2.render.children.length = 1 ∧
    cexEditorC2.blocks.length = 2 := ⟨rfl, rfl, rfl⟩

/-- Blocks and configuration for the C2 witness. -/
def witConfigC2 : EditorConfiguration :=
  { visualRenderer := some ⟨[("text", textRenderer)]⟩ }

/-- A witness text block. -/
def witTextBlock : Block := ⟨"text", .obj [("content", .str "hello")]⟩

/-- A witness block of unregistered type. -/
def witImageBlock : Block := ⟨"image", .obj [("url", .str "x")]⟩

theorem claim_C2_amended_witness :
    ((Editor.render ⟨witConfigC2, [witTextBlock] ++ witImageBlock :: []⟩).children =
      (Editor.render ⟨witConfigC2, [witTextBlock]⟩).children ++
        (Editor.render ⟨witConfigC2, []⟩).children ∧
    (Editor.render ⟨witConfigC2, [witTextBlock] ++ witImageBlock :: []⟩).children.length =
      ([witTextBlock] ++ witImageBlock :: []).countP
        (fun x => (renderChild witConfigC2 x).isSome)) :=
  claim_C2_amended witConfigC2 [witTextBlock] [] witImageBlock rfl

/-- A renderer that always throws. -/
def boomRenderer : Renderer := fun _ => .error "boom"

/-- Configuration for the C5 witness: `text` renders, `bad` throws. -/
def witConfigC5 : EditorConfiguration :=
  { visualRenderer := some ⟨[("text", textRenderer), ("bad", boomRenderer)]⟩ }

/-- The throwing block of the C5 witness. -/
def witBadBlock : Block := ⟨"bad", .null⟩

theorem claim_C5_error_isolation_witness :
    (Editor.render ⟨witConfigC5, [witTextBlock] ++ witBadBlock :: [witTextBlock]⟩).children =
      (Editor.render ⟨witConfigC5, [witTextBlock]⟩).children ++
        errorHtml "boom" :: (Editor.render ⟨witConfigC5, [witTextBlock]⟩).children :=
  claim_C5_error_isolation witConfigC5 [witTextBlock] [witTextBlock] witBadBlock
    boomRenderer "boom" rfl rfl

/-- Claim C8 (amended): renderer resolution does not fall back from the
current surface to the legacy one.  When `visualRenderer` is present, the
render result is entirely independent of the legacy `renderers` map (a type
present only in the legacy map is skipped); the legacy surface is consulted
only when `visualRenderer` is absent, in which case its renderer is the one
invoked. -/
theorem claim_C8_amended (cfg : EditorConfiguration) :
    (cfg.visualRenderer.isSome = true →
      ∀ rs (bs : List Block),
        Editor.render ⟨{ cfg with renderers := rs }, bs⟩ =
          Editor.render ⟨{ cfg with renderers := none }, bs⟩) ∧
    (cfg.visualRenderer = none →
      ∀ (b : Block) rs renderer el, cfg.renderers = some rs →
        rs.lookup b.type = some renderer → renderer b.data = .ok el →
        renderChild cfg b = some el) := by
  constructor
  · intro hvr rs bs
    obtain ⟨vr, hvr⟩ : ∃ vr, cfg.visualRenderer = some vr := by
      cases h : cfg.visualRenderer
      · rw [h] at hvr
        exact absurd hvr (by simp)
      · exact ⟨_, rfl⟩
    have hcongr : ∀ (bs2 : List Block) (acc : List Html),
        bs2.foldl (fun acc b =>
          acc ++ (renderChild { cfg with renderers := rs } b).toList) acc =
          bs2.foldl (fun acc b =>
            acc ++ (renderChild { cfg with renderers := none } b).toList) acc := by
      intro bs2
      induction bs2 with
      | nil => intro acc; rfl
      | cons b2 bs2 ih =>
        intro acc
        have hchild : renderChild { cfg with renderers := rs } b2 =
            renderChild { cfg with renderers := none } b2 := by
          simp only [renderChild, hvr]
        simp only [List.foldl_cons, hchild, ih]
    simp only [Editor.render]
    congr 1
    exact hcongr bs []
  · intro hvr b rs renderer el hrs hlook hok
    simp only [renderChild, hvr, hrs, hlook, hok]

/-- The legacy renderer of the C8 counterexample. -/
def legacyP : Renderer := fun _ => .ok (.node "p" "" "legacy" [])

/-- Both surfaces present; `text` has a renderer only in the legacy map. -/
def cexConfigC8 : EditorConfiguration :=
  { visualRenderer := some ⟨[]⟩, renderers := some [("text", legacyP)] }

/-- An editor with one `text` block under `cexConfigC8`. -/
def cexEditorC8 : Editor :=
  { configuration := cexConfigC8, blocks := [⟨"text", .str "hi"⟩] }

/-- Counterexample to claim C8 as stated: with both surfaces present and a
`text` renderer only in the legacy map, that legacy renderer is not invoked —
the block is skipped and the container stays empty, rather than containing
the legacy renderer output. -/
theorem claim_C8_counterexample :
    legacyP (.str "hi") = .ok (.node "p" "" "legacy" []) ∧
    cexEditorC8.render = .node "div" "runik-editor-content" "" [] ∧
    renderChild cexConfigC8 ⟨"text", .str "hi"⟩ = none := ⟨rfl, rfl, rfl⟩

/-- Legacy-only configuration for the C8 witness. -/
def witConfigC8 : EditorConfiguration := { renderers := some [("text", legacyP)] }

theorem claim_C8_amended_witness :
    (Editor.render ⟨{ cexConfigC8 with renderers := some [("text", legacyP)] },
        [⟨"text", .str "hi"⟩]⟩ =
      Editor.render ⟨{ cexConfigC8 with renderers := none }, [⟨"text", .str "hi"⟩]⟩) ∧
    renderChild witConfigC8 ⟨"text", .str "hi"⟩ = some (.node "p" "" "legacy" []) :=
  ⟨(claim_C8_amended cexConfigC8).1 rfl (some [("text", legacyP)]) [⟨"text", .str "hi"⟩],
   (claim_C8_amended witConfigC8).2 rfl ⟨"text", .str "hi"⟩ [("text", legacyP)]
     legacyP (.node "p" "" "legacy" []) rfl rfl rfl⟩

/-! ## Mutation claims C1, C3, C6, C7 -/

theorem map_getD_range {α : Type} [Inhabited α] (l : List α) :
    (List.range l.length).map (fun i => l.getD i default) = l := by
  apply List.ext_getElem
  · simp
  · intro i h1 h2
    simp only [List.getElem_map, List.getElem_range]
    rw [List.getD_eq_getElem _ _ h2]

theorem rearrangeBlocks_ok_blocks (e : Editor) (newOrder : List Int) (e2 : Editor)
    (h : e.rearrangeBlocks newOrder = .ok e2) :
    e2 = { e with blocks := newOrder.map (fun i => e.blocks.getD i.toNat default) } := by
  unfold Editor.rearrangeBlocks at h
  split at h
  · exact absurd h (by simp)
  · split at h
    · exact absurd h (by simp)
    · simp only [Except.ok.injEq] at h
      exact h.symm

/-- Claim C1 (amended): `rearrangeBlocks` succeeds exactly when the new order
has the same length as the block sequence and every entry is in range — it
does not check that the entries are distinct, so a repeated in-range index is
accepted and duplicates blocks (see the counterexample).  On success the new
sequence is `newOrder.map (i => blocks[i])`; when `newOrder` in fact is a
bijection over the index set, that sequence is a permutation of the prior one
(block values preserved, only positions change). -/
theorem claim_C1_rearrange (e : Editor) (newOrder : List Int) :
    ((∃ e2, e.rearrangeBlocks newOrder = .ok e2) ↔
      (newOrder.length = e.blocks.length ∧
        ∀ i ∈ newOrder, 0 ≤ i ∧ i < (e.blocks.length : Int))) ∧
    (∀ e2, e.rearrangeBlocks newOrder = .ok e2 →
      e2.blocks = newOrder.map (fun i => e.blocks.getD i.toNat default)) ∧
    (newOrder.Perm ((List.range e.blocks.length).map Int.ofNat) →
      ∀ e2, e.rearrangeBlocks newOrder = .ok e2 → e2.blocks.Perm e.blocks) := by
  refine ⟨?_, ?_, ?_⟩
  · unfold Editor.rearrangeBlocks
    split
    · next hlen =>
      constructor
      · rintro ⟨e2, he⟩
        exact absurd he (by simp)
      · rintro ⟨h1, _⟩
        exact absurd h1 hlen
    · next hlen =>
      rw [not_ne_iff] at hlen
      split
      · next i hfind =>
        constructor
        · rintro ⟨e2, he⟩
          exact absurd he (by simp)
        · rintro ⟨h1, h2⟩
          have hmem := List.mem_of_find?_eq_some hfind
          have hp := List.find?_some hfind
          simp only [Bool.or_eq_true, decide_eq_true_eq] at hp
          have := h2 i hmem
          omega
      · next hfind =>
        constructor
        · intro _
          refine ⟨hlen, fun i hi => ?_⟩
          have := List.find?_eq_none.mp hfind i hi
          simp only [Bool.or_eq_true, decide_eq_true_eq, not_or] at this
          omega
        · intro _
          exact ⟨_, rfl⟩
  · intro e2 he
    rw [rearrangeBlocks_ok_blocks e newOrder e2 he]
  · intro hperm e2 he
    rw [rearrangeBlocks_ok_blocks e newOrder e2 he]
    have h1 := hperm.map (fun i => e.blocks.getD i.toNat default)
    refine h1.trans ?_
    rw [List.map_map]
    have h2 : (List.range e.blocks.length).map
        ((fun i => e.blocks.getD i.toNat default) ∘ Int.ofNat) =
        (List.range e.blocks.length).map (fun n => e.blocks.getD n default) :=
      List.map_congr_left (fun n _ => by
        simp [Function.comp, Int.toNat_ofNat])
    rw [h2, map_getD_range]

/-- The editor of the C1 counterexample: two distinct blocks, no schema. -/
def cexEditorC1 : Editor :=
  { configuration := {}, blocks := [⟨"text", .str "a"⟩, ⟨"text", .str "b"⟩] }

/-- Counterexample to claim C1 as stated: the order `[0, 0]` is not a
bijection over the index set `[0, 2)`, yet `rearrangeBlocks` does not throw —
it succeeds and produces a sequence that is not a permutation of the prior
one (the first block is duplicated, the second dropped). -/
theorem claim_C1_counterexample :
    cexEditorC1.rearrangeBlocks [0, 0] =
      .ok { cexEditorC1 with blocks := [⟨"text", .str "a"⟩, ⟨"text", .str "a"⟩] } ∧
    ¬ ([⟨"text", .str "a"⟩, ⟨"text", .str "a"⟩] : List Block).Perm cexEditorC1.blocks := by
  refine ⟨rfl, fun h => ?_⟩
  have hmem : (⟨"text", .str "b"⟩ : Block) ∈
      [(⟨"text", .str "a"⟩ : Block), ⟨"text", .str "a"⟩] :=
    h.mem_iff.mpr (by simp [cexEditorC1])
  simp only [List.mem_cons, List.not_mem_nil, or_false] at hmem
  rcases hmem with h1 | h1 <;> simp at h1

/-- The editor of the C1 witness. -/
def witEditorC1 : Editor :=
  { configuration := {}, blocks := [⟨"text", .str "a"⟩, ⟨"image", .str "b"⟩] }

/-- The result of rearranging the witness editor by `[1, 0]`. -/
def witResultC1 : Editor :=
  { witEditorC1 with blocks := [⟨"image", .str "b"⟩, ⟨"text", .str "a"⟩] }

theorem claim_C1_rearrange_witness :
    witResultC1.blocks =
      ([1, 0] : List Int).map (fun i => witEditorC1.blocks.getD i.toNat default) ∧
    witResultC1.blocks.Perm witEditorC1.blocks :=
  ⟨(claim_C1_rearrange witEditorC1 [1, 0]).2.1 witResultC1 rfl,
   (claim_C1_rearrange witEditorC1 [1, 0]).2.2 (by decide) witResultC1 rfl⟩

/-- Replaces the validators surface of a configuration. -/
def Editor.setValidators (e : Editor)
    (vs : Option (List (String × (JSValue → Bool)))) : Editor :=
  { e with configuration := { e.configuration with validators := vs } }

/-- Claim C3 (amended): `updateBlock` performs no re-validation at all: for an
in-range index it unconditionally replaces the data of the block (keeping its
type), even when a configured validator rejects the new data; its behaviour
is entirely independent of the validators surface.  An out-of-range index
throws, leaving the sequence unchanged. -/
theorem claim_C3_update (e : Editor) (index : Int) (newData : JSValue) :
    (0 ≤ index ∧ index < (e.blocks.length : Int) →
      e.updateBlock index newData =
        .ok { e with blocks := (e.blocks.set index.toNat
                ⟨(e.blocks.getD index.toNat default).type, newData⟩) }) ∧
    (¬ (0 ≤ index ∧ index < (e.blocks.length : Int)) →
      e.updateBlock index newData =
        .error ("Block index " ++ toString index ++ " out of range")) ∧
    (∀ vs, (e.setValidators vs).updateBlock index newData =
        (e.updateBlock index newData).map (fun e2 => e2.setValidators vs)) := by
  refine ⟨?_, ?_, ?_⟩
  · intro h
    rw [Editor.updateBlock, if_pos h]
  · intro h
    rw [Editor.updateBlock, if_neg h]
  · intro vs
    simp only [Editor.updateBlock, Editor.setValidators]
    split
    · rfl
    · rfl

/-- A validator that rejects every value. -/
def rejectAll : JSValue → Bool := fun _ => false

/-- The editor of the C3 counterexample: the `text` type has a configured
validator that rejects everything. -/
def cexEditorC3 : Editor :=
  { configuration := { validators := some [("text", rejectAll)] },
    blocks := [⟨"text", .str "old"⟩] }

/-- Counterexample to claim C3 as stated: the configured validator for the
existing type of block 0 rejects the new data, yet `updateBlock 0` succeeds
and mutates the sequence — no re-validation happens and the document is not
left unchanged. -/
theorem claim_C3_counterexample :
    rejectAll (.str "new") = false ∧
    (cexEditorC3.configuration.validators.getD []).lookup "text" = some rejectAll ∧
    (cexEditorC3.updateBlock 0 (.str "new")).map Editor.blocks =
      .ok [⟨"text", .str "new"⟩] ∧
    [(⟨"text", .str "new"⟩ : Block)] ≠ [⟨"text", .str "old"⟩] := by
  refine ⟨rfl, rfl, rfl, fun h => ?_⟩
  simp at h

/-- The editor of the C3 witness. -/
def witEditorC3 : Editor :=
  { configuration := { validators := some [("text", rejectAll)] },
    blocks := [⟨"text", .str "old"⟩] }

theorem claim_C3_update_witness :
    witEditorC3.updateBlock 0 (.str "new") =
      .ok { witEditorC3 with blocks := [⟨"text", .str "new"⟩] } ∧
    witEditorC3.updateBlock 7 (.str "x") = .error "Block index 7 out of range" ∧
    (witEditorC3.setValidators none).updateBlock 0 (.str "new") =
      (witEditorC3.updateBlock 0 (.str "new")).map (fun e2 => e2.setValidators none) :=
  ⟨((claim_C3_update witEditorC3 0 (.str "new")).1 (by decide)).trans rfl,
   ((claim_C3_update witEditorC3 7 (.str "x")).2.1 (by decide)).trans rfl,
   (claim_C3_update witEditorC3 0 (.str "new")).2.2 none⟩

/-- The guard of `Editor.addBlock`: the push happens unless `blockTypes` is
present with a falsy entry (including an absent one) for the type. -/
def addBlockPermitted (e : Editor) (type : String) : Bool :=
  match e.configuration.blockTypes with
  | some bts => entryTruthy (bts.lookup type)
  | none => true

/-- Claim C6 (amended): when `blockTypes` is present, `addBlock` fails (with
the unknown-block-type error and no change to the sequence) exactly when the
entry for the type is absent or falsy — a type registered with a falsy
default value is rejected even though it is registered; when `blockTypes` is
absent, every type is accepted unchecked.  On success the block is appended
and the returned index is the length before the push. -/
theorem addBlock_guard (e : Editor) (t : String) :
    (match e.configuration.blockTypes with
      | some bts => !(entryTruthy (bts.lookup t))
      | none => false) = !(addBlockPermitted e t) := by
  simp only [addBlockPermitted]
  cases e.configuration.blockTypes <;> simp

theorem claim_C6_add (e : Editor) (type : String) (data : JSValue) :
    (addBlockPermitted e type = true →
      e.addBlock type data =
        .ok ({ e with blocks := e.blocks ++ [⟨type, data⟩] }, e.blocks.length)) ∧
    (addBlockPermitted e type = false →
      e.addBlock type data =
        .error ("Block type \"" ++ type ++ "\" is not defined in the configuration.")) := by
  constructor
  · intro h
    simp only [Editor.addBlock, addBlock_guard, h, Bool.not_true]
    rfl
  · intro h
    simp only [Editor.addBlock, addBlock_guard, h, Bool.not_false]
    rfl

/-- The configuration of the C6 counterexample: the type `flag` is registered
in the block-type schema, with the falsy default value `false`. -/
def cexConfigC6 : EditorConfiguration :=
  { blockTypes := some [("flag", .value (.bool false))] }

/-- An empty editor under `cexConfigC6`. -/
def cexEditorC6 : Editor := { configuration := cexConfigC6 }

/-- Counterexample to claim C6 as stated: `flag` is registered in the schema
(the lookup succeeds), yet `addBlock` throws the unknown-block-type error
instead of appending, because the guard tests JavaScript truthiness of the
entry rather than key membership. -/
theorem claim_C6_counterexample :
    ((cexConfigC6.blockTypes.getD []).lookup "flag").isSome = true ∧
    cexEditorC6.addBlock "flag" (.bool true) =
      .error "Block type \"flag\" is not defined in the configuration." ∧
    cexEditorC6.blocks.length = 0 := ⟨rfl, rfl, rfl⟩

/-- The configuration of the C6 witness. -/
def witConfigC6 : EditorConfiguration :=
  { blockTypes := some [("text", .value (.obj [("content", .str "")]))] }

/-- The editor of the C6 witness, holding one block already. -/
def witEditorC6 : Editor :=
  { configuration := witConfigC6, blocks := [⟨"text", .obj [("content", .str "a")]⟩] }

theorem claim_C6_add_witness :
    witEditorC6.addBlock "text" (.obj [("content", .str "b")]) =
      .ok ({ witEditorC6 with blocks := witEditorC6.blocks ++
              [⟨"text", .obj [("content", .str "b")]⟩] }, witEditorC6.blocks.length) ∧
    witEditorC6.addBlock "video" .null =
      .error "Block type \"video\" is not defined in the configuration." :=
  ⟨(claim_C6_add witEditorC6 "text" (.obj [("content", .str "b")])).1 rfl,
   ((claim_C6_add witEditorC6 "video" .null).2 rfl).trans rfl⟩

/-- Claim C7: `removeBlock` throws the index-out-of-bounds error for any
index outside `[0, length)` and leaves the sequence unchanged; an in-range
index removes exactly the block at that index, the subsequent blocks shifting
down by one with their relative order preserved. -/
theorem claim_C7_remove (e : Editor) (index : Int) :
    (0 ≤ index ∧ index < (e.blocks.length : Int) →
      e.removeBlock index =
        .ok { e with blocks :=
          e.blocks.take index.toNat ++ e.blocks.drop (index.toNat + 1) }) ∧
    (¬ (0 ≤ index ∧ index < (e.blocks.length : Int)) →
      e.removeBlock index =
        .error ("Block index " ++ toString index ++ " out of range")) := by
  constructor
  · intro h
    rw [Editor.removeBlock, if_pos h, List.eraseIdx_eq_take_drop_succ]
  · intro h
    rw [Editor.removeBlock, if_neg h]

/-- The editor of the C7 witness: three blocks. -/
def witEditorC7 : Editor :=
  { configuration := {},
    blocks := [⟨"text", .str "a"⟩, ⟨"text", .str "b"⟩, ⟨"text", .str "c"⟩] }

theorem claim_C7_remove_witness :
    witEditorC7.removeBlock 1 =
      .ok { witEditorC7 with blocks := [⟨"text", .str "a"⟩, ⟨"text", .str "c"⟩] } ∧
    witEditorC7.removeBlock 5 = .error "Block index 5 out of range" ∧
    witEditorC7.removeBlock (-1) = .error "Block index -1 out of range" :=
  ⟨((claim_C7_remove witEditorC7 1).1 (by decide)).trans rfl,
   ((claim_C7_remove witEditorC7 5).2 (by decide)).trans rfl,
   ((claim_C7_remove witEditorC7 (-1)).2 (by decide)).trans rfl⟩

/-! ## Heap lemmas and claim C9 -/

theorem getD_mem {α : Type} (l : List α) (j : Nat) (d : α) (h : j < l.length) :
    l.getD j d ∈ l := by
  rw [List.getD_eq_getElem _ _ h]
  exact List.getElem_mem h

theorem getD_set_ne {α : Type} (l : List α) (i j : Nat) (a d : α) (h : i ≠ j) :
    (l.set i a).getD j d = l.getD j d := by
  rw [List.getD_eq_getD_get?, List.getD_eq_getD_get?]
  congr 1
  rw [List.get?_eq_getElem?, List.get?_eq_getElem?, List.getElem?_set_ne h]

theorem getD_set_eq {α : Type} (l : List α) (i : Nat) (a d : α) (h : i < l.length) :
    (l.set i a).getD i d = a := by
  rw [List.getD_eq_getElem _ _ (by simpa using h), List.getElem_set_self]

theorem isBlk_obtain {o : HeapObj} (h : o.isBlk = true) : ∃ t d, o = .blkObj t d := by
  cases o with
  | arrObj es => simp [HeapObj.isBlk] at h
  | blkObj t d => exact ⟨t, d, rfl⟩

theorem readArr_append_of_lt (σ : Heap) (x : HeapObj) (r : Nat) (h : r < σ.length) :
    readArr (σ ++ [x]) r = readArr σ r := by
  simp only [readArr, List.getD_append _ _ _ _ h]

theorem readBlk_append_of_lt (σ : Heap) (x : HeapObj) (r : Nat) (h : r < σ.length) :
    readBlk (σ ++ [x]) r = readBlk σ r := by
  simp only [readBlk, List.getD_append _ _ _ _ h]

theorem readArr_append_new (σ : Heap) (es : List Nat) :
    readArr (σ ++ [.arrObj es]) σ.length = es := by
  simp only [readArr, List.getD_append_right _ _ _ _ (Nat.le_refl _), Nat.sub_self]
  rfl

theorem readArr_set_ne (σ : Heap) (q r : Nat) (x : HeapObj) (h : r ≠ q) :
    readArr (List.set σ r x) q = readArr σ q := by
  simp only [readArr, getD_set_ne σ r q x _ h]

theorem readBlk_set_ne (σ : Heap) (q r : Nat) (x : HeapObj) (h : r ≠ q) :
    readBlk (List.set σ r x) q = readBlk σ q := by
  simp only [readBlk, getD_set_ne σ r q x _ h]

theorem map_set_of_nodup {α : Type} (refs : List Nat) (f g : Nat → α) :
    ∀ (i : Nat) (a : α), i < refs.length → refs.Nodup →
    (∀ r ∈ refs, r ≠ refs.getD i 0 → g r = f r) →
    g (refs.getD i 0) = a →
    refs.map g = (refs.map f).set i a := by
  induction refs with
  | nil =>
    intro i a hi
    simp at hi
  | cons r rs ih =>
    intro i a hi hnd hne hupd
    have hrs := List.nodup_cons.mp hnd
    cases i with
    | zero =>
      simp only [List.getD_cons_zero] at hne hupd
      have h1 : rs.map g = rs.map f :=
        List.map_congr_left (fun q hq => hne q (List.mem_cons_of_mem _ hq)
          (fun hqr => hrs.1 (by rw [← hqr]; exact hq)))
      simp only [List.map_cons, List.set_cons_zero, h1, hupd]
    | succ j =>
      have hj : j < rs.length := by simpa using hi
      simp only [List.getD_cons_succ] at hne hupd
      have hgr : g r = f r :=
        hne r (by simp) (fun hr => hrs.1 (by rw [hr]; exact getD_mem rs j 0 hj))
      simp only [List.map_cons, List.set_cons_succ, hgr]
      rw [ih j a hj hrs.2 (fun q hq hq2 => hne q (List.mem_cons_of_mem _ hq) hq2) hupd]

/-- Claim C9: `getBlocks` returns a fresh array — mutating the returned array
itself (replacing its contents in any way) leaves the block sequence the
editor observes unchanged — while the elements of the returned array are the
very same block-object references the editor holds, so assigning to the
`data` field through a returned element changes the editor's stored block at
that position; `RunikUI.updateBlockData` propagates its merged data into the
core editor through exactly this aliasing. -/
theorem claim_C9_aliasing (σ : Heap) (e : HEditor) (hwf : wfEditorHeap σ e = true) :
    ((getBlocksH σ e).1 ≠ e.blocksRef ∧
      ∀ es, editorView (setArr (getBlocksH σ e).2 (getBlocksH σ e).1 es) e =
        editorView σ e) ∧
    readArr (getBlocksH σ e).2 (getBlocksH σ e).1 = readArr σ e.blocksRef ∧
    (∀ i v, i < (readArr σ e.blocksRef).length →
      editorView (setBlkData (getBlocksH σ e).2
          ((readArr (getBlocksH σ e).2 (getBlocksH σ e).1).getD i 0) v) e =
        (editorView σ e).set i
          ((readBlk σ ((readArr σ e.blocksRef).getD i 0)).1, v)) ∧
    (∀ i newData, i < (readArr σ e.blocksRef).length →
      editorView (updateBlockDataH σ e i newData) e =
        (editorView σ e).set i
          ((readBlk σ ((readArr σ e.blocksRef).getD i 0)).1,
            jsSpread (readBlk σ ((readArr σ e.blocksRef).getD i 0)).2 (.obj newData))) := by
  simp only [wfEditorHeap, Bool.and_eq_true, List.all_eq_true, decide_eq_true_eq] at hwf
  obtain ⟨⟨⟨h1, h2⟩, h3⟩, h4⟩ := hwf
  have hrefs : ∀ r ∈ readArr σ e.blocksRef,
      r < σ.length ∧ (List.getD σ r (.arrObj [])).isBlk = true ∧ r ≠ e.blocksRef := by
    intro r hr
    have := h3 r hr
    simp only [Bool.and_eq_true, decide_eq_true_eq] at this
    exact ⟨this.1.1, this.1.2, this.2⟩
  have hcopy : readArr (σ ++ [HeapObj.arrObj (readArr σ e.blocksRef)]) σ.length =
      readArr σ e.blocksRef := readArr_append_new σ _
  have hwrite : ∀ i v, i < (readArr σ e.blocksRef).length →
      editorView (setBlkData (σ ++ [HeapObj.arrObj (readArr σ e.blocksRef)])
          ((readArr σ e.blocksRef).getD i 0) v) e =
        (editorView σ e).set i
          ((readBlk σ ((readArr σ e.blocksRef).getD i 0)).1, v) := by
    intro i v hi
    have hrmem : (readArr σ e.blocksRef).getD i 0 ∈ readArr σ e.blocksRef :=
      getD_mem _ i 0 hi
    obtain ⟨hrlt, hrblk, hrne⟩ := hrefs _ hrmem
    rw [List.getD_eq_getElem _ _ hrlt] at hrblk
    obtain ⟨t, dd, hteq⟩ := isBlk_obtain hrblk
    have hgetD1 : List.getD (σ ++ [HeapObj.arrObj (readArr σ e.blocksRef)])
        ((readArr σ e.blocksRef).getD i 0) (.blkObj "" .null) = HeapObj.blkObj t dd := by
      rw [List.getD_append _ _ _ _ hrlt, List.getD_eq_getElem _ _ hrlt, hteq]
    have hreadBlk : readBlk σ ((readArr σ e.blocksRef).getD i 0) = (t, dd) := by
      simp only [readBlk]
      rw [List.getD_eq_getElem _ _ hrlt, hteq]
    rw [setBlkData, hgetD1]
    simp only [editorView]
    have hreadArr2 : readArr ((σ ++ [HeapObj.arrObj (readArr σ e.blocksRef)]).set
        ((readArr σ e.blocksRef).getD i 0) (HeapObj.blkObj t v)) e.blocksRef =
        readArr σ e.blocksRef := by
      rw [readArr_set_ne _ _ _ _ hrne, readArr_append_of_lt σ _ _ h1]
    rw [hreadArr2]
    apply map_set_of_nodup (readArr σ e.blocksRef) (readBlk σ) _ i _ hi h4
    · intro q hq hqne
      rw [readBlk_set_ne _ _ _ _ (fun heq => hqne heq.symm)]
      exact readBlk_append_of_lt σ _ q (hrefs q hq).1
    · rw [hreadBlk]
      simp only [readBlk]
      have hlen2 : (readArr σ e.blocksRef).getD i 0 <
          (σ ++ [HeapObj.arrObj (readArr σ e.blocksRef)]).length := by
        simp only [List.length_append, List.length_cons, List.length_nil]
        omega
      rw [getD_set_eq _ _ _ _ hlen2]
  refine ⟨⟨?_, ?_⟩, hcopy, ?_, ?_⟩
  · simp only [getBlocksH]
    omega
  · intro es
    simp only [getBlocksH, setArr, editorView]
    have hra : readArr ((σ ++ [HeapObj.arrObj (readArr σ e.blocksRef)]).set σ.length
        (HeapObj.arrObj es)) e.blocksRef = readArr σ e.blocksRef := by
      rw [readArr_set_ne _ _ _ _ (by omega), readArr_append_of_lt σ _ _ h1]
    rw [hra]
    apply List.map_congr_left
    intro r hr
    have hrlt := (hrefs r hr).1
    rw [readBlk_set_ne _ _ _ _ (by omega), readBlk_append_of_lt σ _ r hrlt]
  · intro i v hi
    simp only [getBlocksH]
    rw [hcopy]
    exact hwrite i v hi
  · intro i newData hi
    simp only [updateBlockDataH, getBlocksH]
    rw [hcopy]
    have hrlt := (hrefs _ (getD_mem _ i 0 hi)).1
    rw [readBlk_append_of_lt σ _ _ hrlt]
    exact hwrite i _ hi

/-- The heap of the C9 witness: two block objects and the editor array. -/
def witHeapC9 : Heap :=
  [.blkObj "text" (.obj [("content", .str "a")]),
   .blkObj "text" (.obj [("content", .str "b")]),
   .arrObj [0, 1]]

/-- The editor of the C9 witness, holding the array at address 2. -/
def witHEditorC9 : HEditor := ⟨2⟩

theorem claim_C9_aliasing_witness :
    (editorView (setArr (getBlocksH witHeapC9 witHEditorC9).2
        (getBlocksH witHeapC9 witHEditorC9).1 [1, 1, 0]) witHEditorC9 =
      editorView witHeapC9 witHEditorC9) ∧
    readArr (getBlocksH witHeapC9 witHEditorC9).2 (getBlocksH witHeapC9 witHEditorC9).1 =
      readArr witHeapC9 witHEditorC9.blocksRef ∧
    editorView (updateBlockDataH witHeapC9 witHEditorC9 0 [("content", .str "c")])
        witHEditorC9 =
      (editorView witHeapC9 witHEditorC9).set 0
        ("text", jsSpread (.obj [("content", .str "a")]) (.obj [("content", .str "c")])) :=
  ⟨(claim_C9_aliasing witHeapC9 witHEditorC9 (by decide)).1.2 [1, 1, 0],
   (claim_C9_aliasing witHeapC9 witHEditorC9 (by decide)).2.1,
   (claim_C9_aliasing witHeapC9 witHEditorC9 (by decide)).2.2.2 0
     [("content", .str "c")] (by decide)⟩

/-! ## RunikUI invariants and claim C10 -/

/-- The id sequence of the wrapper state. -/
def uiIds (s : RunikUI) : List Nat := s.blocks.map IdBlock.id

/-- The wrapper and the wrapped editor hold the same ordered (type, data)
sequence. -/
def Synced (s : RunikUI) : Prop :=
  s.editor.blocks.map pairOfE = s.blocks.map pairOfU

/-- Every id in the wrapper is below the id counter. -/
def IdsBounded (s : RunikUI) : Prop := ∀ b ∈ s.blocks, b.id < s.nextId

/-- Two wrapper entries with equal ids are equal (duplicates are copies). -/
def IdsCoherent (s : RunikUI) : Prop :=
  ∀ b ∈ s.blocks, ∀ b2 ∈ s.blocks, b.id = b2.id → b = b2

/-- The inductive invariant of the wrapper. -/
def GoodState (s : RunikUI) : Prop := Synced s ∧ IdsBounded s ∧ IdsCoherent s

theorem getD_map_of_lt {α β : Type} (l : List α) (f : α → β) (j : Nat) (d : α)
    (d2 : β) (h : j < l.length) : (l.map f).getD j d2 = f (l.getD j d) := by
  rw [List.getD_eq_getElem _ _ (by simpa using h), List.getElem_map,
    List.getD_eq_getElem _ _ h]

theorem map_eraseIdx {α β : Type} (f : α → β) :
    ∀ (l : List α) (n : Nat), (l.eraseIdx n).map f = (l.map f).eraseIdx n := by
  intro l
  induction l with
  | nil => intro n; rfl
  | cons a as ih =>
    intro n
    cases n with
    | zero => rfl
    | succ m => simp only [List.eraseIdx_cons_succ, List.map_cons, ih]

theorem Editor.addBlock_ok (e : Editor) (t : String) (d : JSValue) (ed : Editor)
    (idx : Nat) (h : e.addBlock t d = .ok (ed, idx)) :
    ed = { e with blocks := e.blocks ++ [⟨t, d⟩] } ∧ idx = e.blocks.length := by
  unfold Editor.addBlock at h
  split at h
  · exact absurd h (by simp)
  · simp only [Except.ok.injEq, Prod.mk.injEq] at h
    exact ⟨h.1.symm, h.2.symm⟩

theorem Editor.removeBlock_ok (e : Editor) (i : Int) (ed : Editor)
    (h : e.removeBlock i = .ok ed) :
    ed = { e with blocks := e.blocks.eraseIdx i.toNat } := by
  unfold Editor.removeBlock at h
  split at h
  · simp only [Except.ok.injEq] at h
    exact h.symm
  · exact absurd h (by simp)

theorem lastIndexOf_spec (bs : List IdBlock) (id : Nat) :
    ∀ j, lastIndexOf bs id = some j →
      j < bs.length ∧ (bs.getD j default).id = id := by
  induction bs with
  | nil =>
    intro j h
    simp [lastIndexOf] at h
  | cons b rest ih =>
    intro j h
    rw [lastIndexOf] at h
    cases hrec : lastIndexOf rest id with
    | some j2 =>
      rw [hrec] at h
      simp only [Option.some.injEq] at h
      obtain ⟨h1, h2⟩ := ih j2 hrec
      subst h
      exact ⟨by simpa using h1, by simpa using h2⟩
    | none =>
      rw [hrec] at h
      by_cases hb : b.id = id
      · rw [if_pos hb] at h
        simp only [Option.some.injEq] at h
        subst h
        exact ⟨by simp, hb⟩
      · rw [if_neg hb] at h
        exact absurd h (by simp)

theorem find?_id_spec (bs : List IdBlock) (id : Nat) (b : IdBlock)
    (h : bs.find? (fun x => x.id == id) = some b) : b ∈ bs ∧ b.id = id := by
  refine ⟨List.mem_of_find?_eq_some h, ?_⟩
  have := List.find?_some h
  simpa using this

theorem rearrange_pointwise (ub : List IdBlock) (eb : List Block)
    (hS : eb.map pairOfE = ub.map pairOfU)
    (hC : ∀ b ∈ ub, ∀ b2 ∈ ub, b.id = b2.id → b = b2) :
    ∀ (ids idxs : List Nat) (nbs : List IdBlock),
      mapOpt ids (lastIndexOf ub) = some idxs →
      mapOpt ids (fun id => ub.find? (fun b => b.id == id)) = some nbs →
      (idxs.map (fun j => pairOfE (eb.getD j default)) = nbs.map pairOfU ∧
       nbs.map IdBlock.id = ids ∧
       ∀ b ∈ nbs, b ∈ ub) := by
  have hlen : eb.length = ub.length := by
    have := congrArg List.length hS
    simpa using this
  intro ids
  induction ids with
  | nil =>
    intro idxs nbs h1 h2
    simp only [mapOpt, Option.some.injEq] at h1 h2
    subst h1
    subst h2
    exact ⟨rfl, rfl, by simp⟩
  | cons id rest ih =>
    intro idxs nbs h1 h2
    simp only [mapOpt] at h1 h2
    cases hj : lastIndexOf ub id with
    | none =>
      rw [hj] at h1
      exact absurd h1 (by simp)
    | some j =>
      rw [hj] at h1
      cases hrest1 : mapOpt rest (lastIndexOf ub) with
      | none =>
        rw [hrest1] at h1
        exact absurd h1 (by simp)
      | some idxs2 =>
        rw [hrest1] at h1
        simp only [Option.some.injEq] at h1
        subst h1
        cases hb : ub.find? (fun b => b.id == id) with
        | none =>
          rw [hb] at h2
          exact absurd h2 (by simp)
        | some b =>
          rw [hb] at h2
          cases hrest2 : mapOpt rest (fun id => ub.find? (fun b => b.id == id)) with
          | none =>
            rw [hrest2] at h2
            exact absurd h2 (by simp)
          | some nbs2 =>
            rw [hrest2] at h2
            simp only [Option.some.injEq] at h2
            subst h2
            obtain ⟨hj1, hj2⟩ := lastIndexOf_spec ub id j hj
            obtain ⟨hb1, hb2⟩ := find?_id_spec ub id b hb
            obtain ⟨ihA, ihB, ihC⟩ := ih idxs2 nbs2 hrest1 hrest2
            refine ⟨?_, ?_, ?_⟩
            · simp only [List.map_cons, ihA]
              congr 1
              have hjlt : j < eb.length := by omega
              have e1 : pairOfE (eb.getD j default) =
                  (eb.map pairOfE).getD j (pairOfE default) :=
                (getD_map_of_lt eb pairOfE j default _ hjlt).symm
              have e2 : (ub.map pairOfU).getD j (pairOfE default) =
                  pairOfU (ub.getD j default) :=
                getD_map_of_lt ub pairOfU j default _ (by omega)
              rw [e1, hS, e2]
              have hmem : ub.getD j default ∈ ub := getD_mem ub j default (by omega)
              rw [hC (ub.getD j default) hmem b hb1 (by rw [hj2, hb2])]
            · simp only [List.map_cons, ihB, hb2]
            · intro x hx
              rcases List.mem_cons.mp hx with hx1 | hx1
              · subst hx1
                exact hb1
              · exact ihC x hx1

theorem addUI_step (s : RunikUI) (t : String) (d : JSValue) (s2 : RunikUI) (id : Nat)
    (h : s.addBlock t d = .ok (s2, id)) (hG : GoodState s) :
    GoodState s2 ∧ uiIds s2 = uiIds s ++ [s.nextId] ∧ s2.nextId = s.nextId + 1 := by
  obtain ⟨hS, hB, hC⟩ := hG
  replace hS : s.editor.blocks.map pairOfE = s.blocks.map pairOfU := hS
  unfold RunikUI.addBlock at h
  simp only [generateUUID] at h
  cases he : s.editor.addBlock t d with
  | error m =>
    simp only [he] at h
    exact absurd h (by simp)
  | ok p =>
    obtain ⟨ed, idx⟩ := p
    simp only [he, Except.ok.injEq, Prod.mk.injEq] at h
    obtain ⟨hs2, hid⟩ := h
    subst hs2
    obtain ⟨hed, _⟩ := Editor.addBlock_ok _ _ _ _ _ he
    subst hed
    refine ⟨⟨?_, ?_, ?_⟩, ?_, rfl⟩
    · show (s.editor.blocks ++ [Block.mk t d]).map pairOfE =
        (s.blocks ++ [IdBlock.mk s.nextId t d]).map pairOfU
      simp only [List.map_append, hS]
      rfl
    · intro b hb
      rcases List.mem_append.mp hb with hb1 | hb1
      · exact Nat.lt_succ_of_lt (hB b hb1)
      · simp only [List.mem_singleton] at hb1
        subst hb1
        simp
    · intro b hb b2 hb2 hbid
      rcases List.mem_append.mp hb with hb1 | hb1 <;>
        rcases List.mem_append.mp hb2 with hb3 | hb3
      · exact hC b hb1 b2 hb3 hbid
      · simp only [List.mem_singleton] at hb3
        subst hb3
        have hlt := hB b hb1
        exact absurd hbid (by show ¬ b.id = s.nextId; omega)
      · simp only [List.mem_singleton] at hb1
        subst hb1
        have hlt := hB b2 hb3
        exact absurd hbid.symm (by show ¬ b2.id = s.nextId; omega)
      · simp only [List.mem_singleton] at hb1 hb3
        rw [hb1, hb3]
    · show (s.blocks ++ [IdBlock.mk s.nextId t d]).map IdBlock.id =
        s.blocks.map IdBlock.id ++ [s.nextId]
      simp

theorem removeUI_step (s : RunikUI) (id : Nat) (s2 : RunikUI)
    (h : s.removeBlock id = .ok s2) (hG : GoodState s) :
    GoodState s2 ∧ ((uiIds s).Nodup → (uiIds s2).Nodup) ∧ s2.nextId = s.nextId := by
  obtain ⟨hS, hB, hC⟩ := hG
  replace hS : s.editor.blocks.map pairOfE = s.blocks.map pairOfU := hS
  unfold RunikUI.removeBlock at h
  cases hfi : s.blocks.findIdx? (fun b => b.id == id) with
  | none =>
    simp only [hfi] at h
    exact absurd h (by simp)
  | some index =>
    simp only [hfi] at h
    cases he : s.editor.removeBlock (index : Int) with
    | error m =>
      simp only [he] at h
      exact absurd h (by simp)
    | ok ed =>
      simp only [he, Except.ok.injEq] at h
      subst h
      have hed := Editor.removeBlock_ok _ _ _ he
      subst hed
      refine ⟨⟨?_, ?_, ?_⟩, ?_, rfl⟩
      · show (s.editor.blocks.eraseIdx ((index : Int)).toNat).map pairOfE =
          (s.blocks.eraseIdx index).map pairOfU
        rw [show ((index : Int)).toNat = index from rfl, map_eraseIdx, map_eraseIdx, hS]
      · intro b hb
        exact hB b ((List.eraseIdx_sublist s.blocks index).subset hb)
      · intro b hb b2 hb2 hbid
        exact hC b ((List.eraseIdx_sublist s.blocks index).subset hb)
          b2 ((List.eraseIdx_sublist s.blocks index).subset hb2) hbid
      · intro hnd
        show ((s.blocks.eraseIdx index).map IdBlock.id).Nodup
        rw [map_eraseIdx]
        exact hnd.sublist (List.eraseIdx_sublist _ index)

theorem rearrangeUI_step (s : RunikUI) (ids : List Nat) (s2 : RunikUI)
    (h : s.rearrangeBlocks ids = .ok s2) (hG : GoodState s) :
    GoodState s2 ∧ uiIds s2 = ids ∧ s2.nextId = s.nextId := by
  obtain ⟨hS, hB, hC⟩ := hG
  replace hS : s.editor.blocks.map pairOfE = s.blocks.map pairOfU := hS
  unfold RunikUI.rearrangeBlocks at h
  split at h
  · exact absurd h (by simp)
  · cases h1 : mapOpt ids (lastIndexOf s.blocks) with
    | none =>
      simp only [h1] at h
      exact absurd h (by simp)
    | some idxs =>
      simp only [h1] at h
      cases h2 : s.editor.rearrangeBlocks (idxs.map Int.ofNat) with
      | error m =>
        simp only [h2] at h
        exact absurd h (by simp)
      | ok ed =>
        simp only [h2] at h
        cases h3 : mapOpt ids (fun id => s.blocks.find? (fun b => b.id == id)) with
        | none =>
          simp only [h3] at h
          exact absurd h (by simp)
        | some nbs =>
          simp only [h3, Except.ok.injEq] at h
          subst h
          have hed := rearrangeBlocks_ok_blocks _ _ _ h2
          subst hed
          obtain ⟨hA, hB2, hsub⟩ :=
            rearrange_pointwise s.blocks s.editor.blocks hS hC ids idxs nbs h1 h3
          refine ⟨⟨?_, ?_, ?_⟩, hB2, rfl⟩
          · show ((idxs.map Int.ofNat).map
                (fun i => s.editor.blocks.getD i.toNat default)).map pairOfE =
              nbs.map pairOfU
            rw [List.map_map, List.map_map]
            exact hA
          · intro b hb
            exact hB b (hsub b hb)
          · intro b hb b2 hb2 hbid
            exact hC b (hsub b hb) b2 (hsub b2 hb2) hbid

theorem applyOps_invariant :
    ∀ (ops : List UIOp) (s0 s : RunikUI), GoodState s0 →
      applyOps s0 ops = .ok s →
      GoodState s ∧
        (ops.all opDistinct = true → (uiIds s0).Nodup → (uiIds s).Nodup) := by
  intro ops
  induction ops with
  | nil =>
    intro s0 s hG h
    simp only [applyOps, Except.ok.injEq] at h
    subst h
    exact ⟨hG, fun _ hn => hn⟩
  | cons op rest ih =>
    intro s0 s hG h
    simp only [applyOps] at h
    cases hop : applyOp s0 op with
    | error m =>
      simp only [hop] at h
      exact absurd h (by simp)
    | ok s1 =>
      simp only [hop] at h
      cases op with
      | add t d =>
        simp only [applyOp] at hop
        cases ha : s0.addBlock t d with
        | error m =>
          simp only [ha] at hop
          exact absurd hop (by simp)
        | ok p =>
          obtain ⟨s1b, idb⟩ := p
          simp only [ha, Except.ok.injEq] at hop
          subst hop
          obtain ⟨hG1, hids, _⟩ := addUI_step s0 t d s1b idb ha hG
          obtain ⟨hG2, hnd2⟩ := ih s1b s hG1 h
          refine ⟨hG2, fun hall hnd => ?_⟩
          simp only [List.all_cons, Bool.and_eq_true] at hall
          apply hnd2 hall.2
          rw [hids]
          have hnotin : s0.nextId ∉ uiIds s0 := by
            intro hmem
            simp only [uiIds, List.mem_map] at hmem
            obtain ⟨b, hb, hbid⟩ := hmem
            have := hG.2.1 b hb
            omega
          simp [List.nodup_append, hnd, hnotin]
      | remove id2 =>
        simp only [applyOp] at hop
        obtain ⟨hG1, hnd1, _⟩ := removeUI_step s0 id2 s1 hop hG
        obtain ⟨hG2, hnd2⟩ := ih s1 s hG1 h
        refine ⟨hG2, fun hall hnd => ?_⟩
        simp only [List.all_cons, Bool.and_eq_true] at hall
        exact hnd2 hall.2 (hnd1 hnd)
      | rearrange ids =>
        simp only [applyOp] at hop
        obtain ⟨hG1, hids, _⟩ := rearrangeUI_step s0 ids s1 hop hG
        obtain ⟨hG2, hnd2⟩ := ih s1 s hG1 h
        refine ⟨hG2, fun hall hnd => ?_⟩
        simp only [List.all_cons, Bool.and_eq_true, opDistinct,
          decide_eq_true_eq] at hall
        exact hnd2 hall.2 (by rw [hids]; exact hall.1)
      | clear =>
        simp only [applyOp, Except.ok.injEq] at hop
        subst hop
        have hG1 : GoodState s0.clearBlocks :=
          ⟨rfl, fun b hb => absurd hb (by simp [RunikUI.clearBlocks]),
           fun b hb => absurd hb (by simp [RunikUI.clearBlocks])⟩
        obtain ⟨hG2, hnd2⟩ := ih _ s hG1 h
        refine ⟨hG2, fun hall hnd => ?_⟩
        simp only [List.all_cons, Bool.and_eq_true] at hall
        exact hnd2 hall.2 (by simp [uiIds, RunikUI.clearBlocks])

/-- Claim C10 (amended): after every successful sequence of `RunikUI`
mutations (`addBlock`, `removeBlock`, `rearrangeBlocks`, `clearBlocks`)
starting from an empty `RunikUI`, the id-annotated wrapper list and the
wrapped core editor hold the same length and the same ordered (type, data)
sequence; the ids are pairwise distinct provided every `rearrangeBlocks` call
passed pairwise-distinct ids — a `rearrangeBlocks` call that repeats an id
succeeds and duplicates that id (see the counterexample). -/
theorem claim_C10_invariant (cfg : EditorConfiguration) (ops : List UIOp)
    (s : RunikUI) (h : applyOps (RunikUI.create cfg) ops = .ok s) :
    (s.editor.blocks.length = s.blocks.length ∧
      s.editor.blocks.map pairOfE = s.blocks.map pairOfU) ∧
    (distinctRearranges ops = true → (s.blocks.map IdBlock.id).Nodup) := by
  have hG0 : GoodState (RunikUI.create cfg) :=
    ⟨rfl, fun b hb => absurd hb (by simp [RunikUI.create]),
     fun b hb => absurd hb (by simp [RunikUI.create])⟩
  obtain ⟨hG, hnd⟩ := applyOps_invariant ops _ s hG0 h
  have hSeq : s.editor.blocks.map pairOfE = s.blocks.map pairOfU := hG.1
  refine ⟨⟨?_, hSeq⟩, fun hd => ?_⟩
  · have := congrArg List.length hSeq
    simpa using this
  · exact hnd hd (by simp [uiIds, RunikUI.create])

/-- The configuration of the C10 counterexample (no schema, no renderers). -/
def cexConfigC10 : EditorConfiguration := {}

/-- Two insertions followed by a rearrange that repeats the first id. -/
def cexOpsC10 : List UIOp :=
  [.add "text" (.str "a"), .add "text" (.str "b"), .rearrange [0, 0]]

/-- Counterexample to claim C10 as stated: the sequence succeeds (no throw),
yet the resulting id list `[0, 0]` is not pairwise distinct — the rearrange
that repeated an id duplicated the block under the same id on both sides. -/
theorem claim_C10_counterexample :
    (applyOps (RunikUI.create cexConfigC10) cexOpsC10).map uiIds = .ok [0, 0] ∧
    ¬ ([0, 0] : List Nat).Nodup := by
  exact ⟨rfl, by decide⟩

/-- The configuration of the C10 witness. -/
def witConfigC10 : EditorConfiguration := {}

/-- A mutation sequence exercising all four operations. -/
def witOpsC10 : List UIOp :=
  [.add "text" (.str "a"), .add "image" (.str "b"), .rearrange [1, 0],
   .remove 1, .add "text" (.str "c"), .clear, .add "text" (.str "d")]

/-- The state `witOpsC10` produces from the empty wrapper. -/
def witStateC10 : RunikUI :=
  { editor := { configuration := witConfigC10, blocks := [⟨"text", .str "d"⟩] },
    blocks := [⟨3, "text", .str "d"⟩], nextId := 4 }

theorem claim_C10_invariant_witness :
    ((witStateC10.editor.blocks.length = witStateC10.blocks.length ∧
      witStateC10.editor.blocks.map pairOfE = witStateC10.blocks.map pairOfU) ∧
     (witStateC10.blocks.map IdBlock.id).Nodup) :=
  ⟨(claim_C10_invariant witConfigC10 witOpsC10 witStateC10 rfl).1,
   (claim_C10_invariant witConfigC10 witOpsC10 witStateC10 rfl).2 (by decide)⟩

end Runik
